import Mathlib

/-!
# dhpals: number-theory kernel and discrete-log solvers

A shallow embedding of `dlp.go` (crt, divides, phi, es, bsgs, basicPohligHellman,
pohligHellman), `factor.go`, `kem.go`, the X128 oracle of `oracle.go` with the key generation
of `x128/x128.go`, the group table entry
MODP-512-V57 of `dhgroup/dh.go` and the kangaroo entry point of `ecdhattacks.go`, over `Int`,
the mathematical content of `*big.Int`.

* A Go run-time panic (nil dereference, division by zero, index out of range,
  an explicit `panic(err)`) is an `Except.error` carrying a `Fault`.
* A nilable `*big.Int` is an `Option Int`; a Go `error` value is an `Option GoError`.
* The `math/big` methods are modelled by their documented contracts
  (`Div`/`Mod` Euclidean, `Exp` modular power, `ModInverse` least non-negative inverse
  or nil, `Sqrt` integer square root).
* Loops whose trip count depends on the data carry a fuel argument; running out of fuel is
  the distinct fault `Fault.outOfFuel`, and every theorem that states a result shows that
  the fuel handed over by the caller suffices.
-/

namespace Dhpals

/-! ## Errors and faults -/

/-- Go `error` values built in `dlp.go`. -/
inductive GoError where
  /-- The value of `fmt.Errorf("%d not coprime", n1)`. -/
  | notCoprime (n1 : Int)
  /-- The value of `errors.New("no solution in bsgs")`. -/
  | noSolutionInBsgs
  /-- The value of `errors.New("a solution was not found by bsgs")`. -/
  | notFoundByBsgs
  deriving DecidableEq, Repr

/-- Text carried by an error value. -/
def GoError.message : GoError → String
  | .notCoprime n1 => toString n1 ++ " not coprime"
  | .noSolutionInBsgs => "no solution in bsgs"
  | .notFoundByBsgs => "a solution was not found by bsgs"

/-- Ways in which a call can abort instead of returning. -/
inductive Fault where
  /-- A method was called on, or with, a nil `*big.Int`. -/
  | nilDereference
  /-- The divisor of `Div` or `Mod` was zero. -/
  | divisionByZero
  /-- A slice was indexed outside its length. -/
  | indexOutOfRange
  /-- The argument of `Sqrt` was negative. -/
  | sqrtOfNegative
  /-- The call `panic(err)` in `pohligHellman`. -/
  | explicitPanic (e : GoError)
  /-- A call `panic(msg)` with a text, or `panic(err)` on an error of a library package. -/
  | panicText (msg : String)
  /-- The fuel of a data-dependent loop ran out (the Go loop would still be running). -/
  | outOfFuel
  deriving DecidableEq, Repr

/-- A computation that either returns or aborts with a fault. -/
abbrev Run (α : Type) := Except Fault α

instance instDecidableEqRun {α : Type} [DecidableEq α] : DecidableEq (Run α)
  | .ok a, .ok b => if h : a = b then isTrue (by rw [h]) else isFalse (by intro h1; cases h1; exact h rfl)
  | .error a, .error b =>
    if h : a = b then isTrue (by rw [h]) else isFalse (by intro h1; cases h1; exact h rfl)
  | .ok _, .error _ => isFalse (by intro h; cases h)
  | .error _, .ok _ => isFalse (by intro h; cases h)

/-- Using a possibly nil pointer as a receiver or operand. -/
def deref {α : Type} : Option α → Run α
  | some v => .ok v
  | none => .error .nilDereference

/-! ## math/big primitives -/

/-- Method `Div` of big.Int: Euclidean quotient, panics on a zero divisor. -/
def bigDiv (x y : Int) : Run Int :=
  if y = 0 then .error .divisionByZero else .ok (x / y)

/-- Method `Mod` of big.Int: Euclidean remainder, panics on a zero divisor. -/
def bigMod (x y : Int) : Run Int :=
  if y = 0 then .error .divisionByZero else .ok (x % y)

/-- Largest `r ≤ k` with `r * r ≤ n` (or `0`). -/
def isqrtAux (n : Nat) : Nat → Nat
  | 0 => 0
  | k + 1 => if (k + 1) * (k + 1) ≤ n then k + 1 else isqrtAux n k

/-- Integer square root `⌊√n⌋`. -/
def isqrt (n : Nat) : Nat := isqrtAux n n

/-- Method `Sqrt` of big.Int: `⌊√x⌋`, panics on a negative argument. -/
def bigSqrt (x : Int) : Run Int :=
  if x < 0 then .error .sqrtOfNegative else .ok (isqrt x.toNat)

/-- Method `ModInverse` of big.Int: the inverse of `g` in `[0, |n|)` modulo `|n|`, or nil when
`g` and `n` are not relatively prime. For `n = 0` the greatest common divisor is `|g|`, so
the result is `1` for `g = 1` and nil for every other `g ≥ 0`. (For `n = 0` and `g < 0` the
Go method first reduces `g` modulo `n` and panics; that case is outside every use below and
yields nil here.) -/
def bigModInverse (g n : Int) : Option Int :=
  if n = 0 then (if g = 1 then some 1 else none)
  else
    ((List.range n.natAbs).find?
      (fun (z : Nat) => decide ((g * (z : Int)) % n = 1 % n))).map Int.ofNat

/-- Method `Exp` of big.Int, `Exp(x, y, m)`: with a nil or zero modulus `x ^ y` (and `1` when
`y ≤ 0`); otherwise `x ^ y mod |m|` in `[0, |m|)`. A negative `y` goes through the modular
inverse `inv` of `x` and yields nil when there is none; the method then takes
`inv ^ |y| mod |m|` and, as for every result, replaces a non-zero value `r` by `|m| - r` when
`x` is negative and `y` is odd. -/
def bigExp (x y : Int) (m : Option Int) : Option Int :=
  match m with
  | none => some (if y ≤ 0 then 1 else x ^ y.toNat)
  | some m =>
    if m = 0 then some (if y ≤ 0 then 1 else x ^ y.toNat)
    else if y < 0 then
      (bigModInverse x m).map (fun inv =>
        let r := inv ^ (-y).toNat % m
        if x < 0 ∧ y % 2 = 1 ∧ r ≠ 0 then |m| - r else r)
    else some (x ^ y.toNat % m)

/-! ## crt -/

/-- Body of the second loop of `crt`, over the remaining moduli, `i` the running index and
`x` the running sum. `bez n1 q` is the cofactor `s` that `z.GCD(nil, &s, n1, &q)` stores. -/
def crtLoop (bez : Int → Int → Int) (a : List Int) (p : Int) :
    List Int → Nat → Int → Run (Option Int × Int × Option GoError)
  | [], _, x => do
    let r ← bigMod x p
    pure (some r, p, none)
  | n1 :: rest, i, x => do
    let q ← bigDiv p n1
    let z : Int := Int.gcd n1 q
    let s := bez n1 q
    if z ≠ 1 then
      pure (none, p, some (GoError.notCoprime n1))
    else
      match a[i]? with
      | none => .error .indexOutOfRange
      | some ai => crtLoop bez a p rest (i + 1) (x + ai * (s * q))

/-- The function `crt(a, n)` with the Bézout cofactor of `big.Int.GCD` as a parameter. Returns the
triple `(solution, N, err)` of the Go function. -/
def crtWith (bez : Int → Int → Int) (a n : List Int) :
    Run (Option Int × Int × Option GoError) :=
  match n with
  | [] => .error .indexOutOfRange
  | n0 :: rest =>
    let p := rest.foldl (fun acc n1 => acc * n1) n0
    crtLoop bez a p (n0 :: rest) 0 0

/-- The function `crt(a, n)`, with the cofactor of the extended Euclidean algorithm. -/
def crt (a n : List Int) : Run (Option Int × Int × Option GoError) :=
  crtWith Int.gcdB a n

/-! ## divides and phi -/

/-- The function `divides(x, y)`: whether `y mod x` is zero. -/
def divides (x y : Int) : Run Bool := do
  let r ← bigMod y x
  pure (decide (r = 0))

/-- Inner loop of `phi`: `for divides(i, cn) { cn.Div(cn, i) }`. -/
def phiStrip : Nat → Int → Int → Run Int
  | 0, _, _ => .error .outOfFuel
  | fuel + 1, i, cn => do
    if (← divides i cn) then
      let cn1 ← bigDiv cn i
      phiStrip fuel i cn1
    else
      pure cn

/-- Outer loop of `phi`: `for i := 2; i < m; i++`, on the state `(cn, res)`. -/
def phiLoop : Nat → Int → Int → Int → Int → Run (Int × Int)
  | 0, _, _, _, _ => .error .outOfFuel
  | fuel + 1, m, i, cn, res =>
    if i < m then do
      if (← divides i cn) then
        let cn1 ← phiStrip (cn.natAbs + 1) i cn
        let e ← bigDiv res i
        phiLoop fuel m (i + 1) cn1 (res - e)
      else
        phiLoop fuel m (i + 1) cn res
    else
      pure (cn, res)

/-- The function `phi(n)`. -/
def phi (n : Int) : Run Int := do
  let res := n
  let m ← bigSqrt n
  let m := m + 1
  let cn := n
  let (cn, res) ← phiLoop m.toNat m 2 cn res
  if cn > 1 then
    let e ← bigDiv res cn
    pure (res - e)
  else
    pure res

/-! ## es -/

/-- Loop of `es`: `for ; j < n; j++ { if y == g^j mod n { break } }`. -/
def esLoop : Nat → Int → Int → Int → Int → Run Int
  | 0, _, _, _, _ => .error .outOfFuel
  | fuel + 1, g, y, n, j =>
    if j < n then do
      let c ← deref (bigExp g j (some n))
      if y = c then pure j else esLoop fuel g y n (j + 1)
    else
      pure j

/-- The function `es(g, y, n)`. -/
def es (g y n : Int) : Run Int :=
  esLoop (n.toNat + 1) g y n 0

/-! ## bsgs -/

/-- Baby-step loop of `bsgs`: `state[(g^j mod p).String()] = j` for `j` in `[0, m)`. The map is an
association list read from the front, so a later store shadows an earlier one; the key is
the (possibly nil) number whose decimal text is the Go key. -/
def bsgsBaby : Nat → Int → Int → Int → Int → List (Option Int × Int) →
    Run (List (Option Int × Int))
  | 0, _, _, _, _, _ => .error .outOfFuel
  | fuel + 1, g, p, m, j, state =>
    if j < m then
      bsgsBaby fuel g p m (j + 1) ((bigExp g j (some p), j) :: state)
    else
      pure state

/-- Giant-step loop of `bsgs`, with `g1` the possibly nil result of `ModInverse`. -/
def bsgsGiant : Nat → Int → Int → Option Int → List (Option Int × Int) → Int → Int →
    Run (Option Int × Option GoError)
  | 0, _, _, _, _, _, _ => .error .outOfFuel
  | fuel + 1, p, m, g1, state, i, q =>
    if i < m then
      match state.lookup (some q) with
      | some j => do
        let r ← bigMod (m * i + j) p
        pure (some r, none)
      | none => do
        let g1v ← deref g1
        let q1 ← bigMod (q * g1v) p
        bsgsGiant fuel p m g1 state (i + 1) q1
    else
      pure (none, some GoError.notFoundByBsgs)

/-- The function `bsgs(g, y, p)`, returning the Go pair `(value, err)`. -/
def bsgs (g y p : Int) : Run (Option Int × Option GoError) :=
  if g = 0 then
    pure (none, some GoError.noSolutionInBsgs)
  else do
    let totient ← phi p
    let m ← bigSqrt totient
    let m := m + 1
    let state ← bsgsBaby (m.toNat + 1) g p m 0 []
    let gm ← deref (bigExp g m (some p))
    let g1 := bigModInverse gm p
    bsgsGiant (m.toNat + 1) p m g1 state 0 y

/-! ## Pohlig-Hellman -/

/-- Loop of `basicPohligHellman` on the state `(j, gamma, l, x)`; `a1` may be nil. -/
def basicLoop : Nat → Int → Int → Int → Int → Int → Int → Option Int →
    Int → Int → Int → Int → Run Int
  | 0, _, _, _, _, _, _, _, _, _, _, _ => .error .outOfFuel
  | fuel + 1, g, y, n, p, pf, ef, a1, j, gamma, l, x =>
    if j < ef then do
      let e1 ← deref (bigExp pf (j - 1) none)
      let aPower := l * e1
      let a ← deref (bigExp g aPower (some p))
      let gamma ← bigMod (gamma * a) p
      let hh ← deref (bigExp pf (j + 1) none)
      let betaPower ← bigDiv n hh
      let beta ← deref (bigModInverse gamma p)
      let beta := beta * y
      let beta := (bigExp beta betaPower (some p)).getD beta
      let a1v ← deref a1
      let (l, _) ← bsgs a1v beta p
      let l ← deref l
      let l ← bigMod l pf
      let dx ← deref (bigExp pf j none)
      let dx := dx * l
      basicLoop fuel g y n p pf ef a1 (j + 1) gamma l (x + dx)
    else
      bigMod x n

/-- The function `basicPohligHellman(g, y, n, p, pf, ef)`. -/
def basicPohligHellman (g y n p pf ef : Int) : Run Int := do
  let q := pf
  let nq ← bigDiv n q
  let a1 := bigExp g nq (some p)
  basicLoop (ef.toNat + 1) g y n p pf ef a1 0 1 0 0

/-- The struct `factor` of `factor.go`. -/
structure factor where
  fact : Int
  exp : Int
  deriving DecidableEq, Repr

/-- Loop of `pohligHellman` over the factors, appending to `A` and `N`. -/
def phCollect (g y n p : Int) : List factor → List Int → List Int → Run (List Int × List Int)
  | [], A, N => pure (A, N)
  | f :: rest, A, N => do
    let pf := f.fact
    let ef := f.exp
    let xx ← basicPohligHellman g y n p pf ef
    let pe ← deref (bigExp pf ef none)
    phCollect g y n p rest (A ++ [xx]) (N ++ [pe])

/-- The function `pohligHellman(g, y, p)`; `factorize` stands for the call into the external
trial-division package. -/
def pohligHellman (factorize : Int → List factor) (g y p : Int) : Run (Option Int) := do
  let n ← phi p
  let factors := factorize n
  let (A, N) ← phCollect g y n p factors [] []
  let (x, _, err) ← crt A N
  match err with
  | some e => .error (.explicitPanic e)
  | none => pure x


/-! ## factor.go -/

/-- Inner step of trial division: divides `r` by `d` as long as it goes, counting in `e`. -/
def stripPower : Nat → Nat → Nat → Nat → Nat × Nat
  | 0, _, r, e => (r, e)
  | fuel + 1, d, r, e => if r % d = 0 then stripPower fuel d (r / d) (e + 1) else (r, e)

/-- Loop of trial division by `d, d + 1, …` up to `limit` on the cofactor `r`. -/
def trialDivisionLoop : Nat → Nat → Nat → Nat → Run (List (Nat × Nat))
  | 0, _, _, _ => .error .outOfFuel
  | fuel + 1, limit, d, r =>
    if r ≤ 1 then pure []
    else if limit < d then pure [(r, 1)]
    else if r % d = 0 then do
      let re := stripPower r d r 0
      let rest ← trialDivisionLoop fuel limit (d + 1) re.1
      pure ((d, re.2) :: rest)
    else trialDivisionLoop fuel limit (d + 1) r

/-- Modelled from the spec: the factor list that the calls `intfact.NewFactors(n)` and
`l.TrialDivision(limit)` of the external package `intfact` build, which `factor.go` imports
and which is not among the sources. The spec: the routine trial-divides up to the limit,
returns the prime-power pairs in increasing prime order, and leaves a remaining cofactor
above the limit unfactored as a final pseudo-factor of exponent 1. Each pair is
`(Fac, Exp)`. -/
def intfactTrialDivision (limit n : Nat) : Run (List (Nat × Nat)) :=
  trialDivisionLoop n limit 2 n

/-- The constant `math.MaxUint32`. -/
def maxUint32 : Nat := 2 ^ 32 - 1

/-- The function `factorize(n)`: copies the nodes `First, …, Next` of the factor list into a
slice of `factor`. -/
def factorize (n : Int) : Run (List factor) := do
  let l ← intfactTrialDivision maxUint32 n.toNat
  pure (l.map (fun p => { fact := (p.1 : Int), exp := (p.2 : Int) }))

/-! ## dhgroup/dh.go -/

/-- The struct `GroupParams`; the pointer fields may be nil. -/
structure GroupParams where
  P : Option Int
  G : Option Int
  Q : Option Int
  Name : String
  BitSize : Int

/-- Value of a decimal digit. -/
def digitVal (c : Char) : Option Nat :=
  if '0' ≤ c ∧ c ≤ '9' then some (c.toNat - '0'.toNat) else none

/-- Reads the digits `cs` after the value `acc`; fails on any other character. -/
def parseDigits : List Char → Nat → Option Nat
  | [], acc => some acc
  | c :: cs, acc =>
    match digitVal c with
    | some d => parseDigits cs (acc * 10 + d)
    | none => none

/-- The function `bigFromBase10(s)`: the result of `SetString(s, 10)`, an optional sign followed
by at least one decimal digit, and nil when the text is not of that form. -/
def bigFromBase10 (s : String) : Option Int :=
  match s.toList with
  | [] => none
  | '-' :: c :: cs => (parseDigits (c :: cs) 0).map (fun v => -(v : Int))
  | '+' :: c :: cs => (parseDigits (c :: cs) 0).map (fun v => (v : Int))
  | cs => (parseDigits cs 0).map (fun v => (v : Int))

/-- The function `initMODP512V57()`: the descriptor it stores in `modp512v57`. -/
def initMODP512V57 : GroupParams :=
  { Name := "MODP-512-V57"
    P := bigFromBase10 "7199773997391911030609999317773941274322764333428698921736339643928346453700085358802973900485592910475480089726140708102474957429903531369589969318716771"
    G := bigFromBase10 "4565356397095740655436854503483826832136106141639563487732438195343690437606117828318042418238184896212352329118608100083187535033402010599512641674644143"
    Q := bigFromBase10 "236234353446506858198510045061214171961"
    BitSize := 512 }

/-! ## Byte strings -/

/-- A Go byte slice. -/
abbrev Bytes := List (Fin 256)

/-- Big-endian digits of `n` in base 256 in front of `acc`. -/
def natBytes : Nat → Nat → Bytes → Bytes
  | 0, _, acc => acc
  | fuel + 1, n, acc =>
    if n = 0 then acc else natBytes fuel (n / 256) (⟨n % 256, Nat.mod_lt _ (by decide)⟩ :: acc)

/-- Method `Bytes` of big.Int: the absolute value as a big-endian byte slice. -/
def bigBytes (x : Int) : Bytes := natBytes x.natAbs x.natAbs []

/-- Method `SetBytes` of big.Int: the big-endian unsigned integer held in `b`. -/
def bigSetBytes (b : Bytes) : Int :=
  b.foldl (fun acc d => acc * 256 + ((d.val : Nat) : Int)) 0

/-- Bits of `n`, counted by halving. -/
def bitLenAux : Nat → Nat → Nat
  | 0, _ => 0
  | fuel + 1, n => if n = 0 then 0 else bitLenAux fuel (n / 2) + 1

/-- Method `BitLen` of big.Int: the length of the absolute value in bits, `0` for `0`. -/
def bigBitLen (x : Int) : Nat := bitLenAux x.natAbs x.natAbs

/-- An `io.Reader` as seen through `io.ReadFull`: the outcome of the call number `i` that asks
for `n` bytes, either the `n` bytes read or the text of the error. -/
abbrev Reader := Nat → Nat → Except String Bytes

/-! ## x128/x128.go -/

namespace x128

/-- The variable `Q`, the order of the subgroup. -/
def Q : Int := 29246302889428143187362802287225875743

/-- The variable `U`, the coordinate of the base point. -/
def U : Int := 4

set_option linter.unusedVariables false in
/-- The function `ladder(u, k)`: its body is the single statement
`panic("not implemented")`. -/
def ladder (u k : Option Int) : Run (Option Int) :=
  .error (.panicText "not implemented")

/-- The function `ScalarMult(in, k)`. -/
def ScalarMult (inp : Option Int) (k : Bytes) : Run (Option Int) :=
  ladder inp (some (bigSetBytes k))

/-- The function `ScalarBaseMult(k)`. -/
def ScalarBaseMult (k : Bytes) : Run (Option Int) :=
  ScalarMult (some U) k

/-- Loop `for pub == nil` of `GenerateKey`, before the read number `i`, with the buffer
`priv`; the result is the triple `(priv, pub, err)`. After a failed read the buffer is
returned as it was before the read. -/
def generateKeyLoop : Nat → Reader → Nat → Nat → Bytes →
    Run (Bytes × Option Int × Option String)
  | 0, _, _, _, _ => .error .outOfFuel
  | fuel + 1, rng, byteLen, i, priv =>
    match rng i byteLen with
    | .error e => pure (priv, none, some e)
    | .ok bs =>
      if bigSetBytes bs ≥ Q then generateKeyLoop fuel rng byteLen (i + 1) bs
      else do
        let pub ← ScalarBaseMult bs
        match pub with
        | none => generateKeyLoop fuel rng byteLen (i + 1) bs
        | some v => pure (bs, some v, none)

/-- The function `GenerateKey(rng)`; a nil `rng` stands for `rand.Reader`. -/
def GenerateKey (randReader : Reader) (rng : Option Reader) (fuel : Nat) :
    Run (Bytes × Option Int × Option String) :=
  let rng := rng.getD randReader
  let bitSize := bigBitLen Q
  let byteLen := (bitSize + 7) / 8
  let priv : Bytes := List.replicate byteLen 0
  generateKeyLoop fuel rng byteLen 0 priv

end x128

/-! ## kem.go -/

/-- The primitives of `crypto/sha256`, `crypto/hmac`, `crypto/aes` and `crypto/cipher` that the
package calls; a failing call carries the text of its error. -/
structure Crypto where
  /-- The type `cipher.Block`. -/
  Block : Type
  /-- The type `cipher.AEAD`. -/
  AEAD : Type
  /-- The function `sha256.Sum256`. -/
  sha256Sum256 : Bytes → Bytes
  /-- HMAC-SHA256 of a message under a key: `hmac.New(sha256.New, k)`, `Write`, `Sum(nil)`. -/
  hmacSha256 : Bytes → Bytes → Bytes
  /-- The function `aes.NewCipher`. -/
  aesNewCipher : Bytes → Except String Block
  /-- The function `cipher.NewGCM`. -/
  cipherNewGCM : Block → Except String AEAD
  /-- Method `Seal(nil, nonce, plaintext, nil)`. -/
  gcmSeal : AEAD → Bytes → Bytes → Bytes
  /-- Method `Open(nil, nonce, ciphertext, nil)`. -/
  gcmOpen : AEAD → Bytes → Bytes → Except String Bytes

/-- A value of the interface types `KEMPrivateKey` and `KEMPublicKey`: a `*big.Int`, or a
value of another dynamic type. -/
inductive KEMKey where
  | bigInt (v : Option Int)
  | other

/-- The struct `dhkemScheme`. -/
structure dhkemScheme where
  group : GroupParams

/-- The slice `bytes.Repeat([]byte{b}, 12)`. -/
def repeatNonce (b : Fin 256) : Bytes := List.replicate 12 b

/-- The key both `Encap` and `Decap` derive: `sha256.Sum256(zz.Bytes())` for
`zz = Exp(dhPub, dhPriv, P)`. -/
def kemKey (c : Crypto) (g : dhkemScheme) (dhPriv dhPub : Option Int) : Run Bytes := do
  let x ← deref dhPub
  let y ← deref dhPriv
  let zz ← deref (bigExp x y g.group.P)
  pure (c.sha256Sum256 (bigBytes zz))

/-- Method `Encap(priv, pub, payload)` of `dhkemScheme`. -/
def dhkemScheme.Encap (c : Crypto) (g : dhkemScheme) (priv pub : KEMKey) (payload : Bytes) :
    Run Bytes :=
  match priv with
  | .other => .error (.panicText "Private key not suitable for DH")
  | .bigInt dhPriv =>
    match pub with
    | .other => .error (.panicText "Public key not suitable for DH")
    | .bigInt dhPub => do
      let k ← kemKey c g dhPriv dhPub
      match c.aesNewCipher k with
      | .error e => .error (.panicText e)
      | .ok block =>
        let nonce := repeatNonce 1
        match c.cipherNewGCM block with
        | .error e => .error (.panicText e)
        | .ok aesgcm => pure (c.gcmSeal aesgcm nonce payload)

/-- Method `Decap(priv, pub, ct)` of `dhkemScheme`. -/
def dhkemScheme.Decap (c : Crypto) (g : dhkemScheme) (priv pub : KEMKey) (ct : Bytes) :
    Run Bytes :=
  match priv with
  | .other => .error (.panicText "Private key not suitable for DH")
  | .bigInt dhPriv =>
    match pub with
    | .other => .error (.panicText "Public key not suitable for DH")
    | .bigInt dhPub => do
      let k ← kemKey c g dhPriv dhPub
      match c.aesNewCipher k with
      | .error e => .error (.panicText e)
      | .ok block =>
        let nonce := repeatNonce 1
        match c.cipherNewGCM block with
        | .error e => .error (.panicText e)
        | .ok aesgcm =>
          match c.gcmOpen aesgcm nonce ct with
          | .error e => .error (.panicText e)
          | .ok payload => pure payload

/-! ## oracle.go -/

/-- The constant `dhKeyAgreementConst` as a byte slice. -/
def dhKeyAgreementConst : Bytes :=
  "crazy flamboyant for the rap enjoyment".toList.map
    (fun ch => ⟨ch.toNat % 256, Nat.mod_lt _ (by decide)⟩)

/-- The function `mixKey(k)`. -/
def mixKey (c : Crypto) (k : Bytes) : Bytes := c.hmacSha256 k dhKeyAgreementConst

/-- The four closures that `newX128TwistAttackOracle` returns. -/
structure X128TwistAttackOracle where
  ecdh : Option Int → Run Bytes
  isKeyCorrect : Bytes → Bool
  getPublicKey : Unit → Option Int × Option Int
  privateKeyOracle : Option Int → Run (Option Int)

/-- The function `newX128TwistAttackOracle()`. The source of randomness `rand.Reader`, which
`x128.GenerateKey(nil)` reads, is the parameter `randReader`; `fuel` bounds the rounds of the
loop of `GenerateKey`. -/
def newX128TwistAttackOracle (c : Crypto) (randReader : Reader) (fuel : Nat) :
    Run X128TwistAttackOracle := do
  let (priv, pub, err) ← x128.GenerateKey randReader none fuel
  match err with
  | some e => .error (.panicText e)
  | none =>
    pure
      { ecdh := fun x => do
          let sx ← x128.ScalarMult x priv
          let sx ← deref sx
          pure (mixKey c (bigBytes sx))
        isKeyCorrect := fun key => decide (priv = key)
        getPublicKey := fun _ => (pub, some (bigSetBytes priv))
        privateKeyOracle := fun q => do
          let qv ← deref q
          let r ← bigMod (bigSetBytes priv) qv
          pure (some r) }

/-! ## ecdhattacks.go -/

set_option linter.unusedVariables false in
/-- The function `catchKangarooOnCurve(curve, bx, by, x, y, a, b)`: its body is the single
statement `panic("not implemented")`. The type `elliptic.Curve` is a parameter. -/
def catchKangarooOnCurve {Curve : Type} (curve : Curve) (bx by_ x y a b : Option Int) :
    Run (Option Int × Option GoError) :=
  .error (.panicText "not implemented")

/-! ## Predicates used in the statements and proofs -/

/-- Invariant of the outer loop of `phi` before the iteration for `i`: `N = A * C`, the primes of
`A` are below `i`, those of `C` are at least `i`. -/
structure PhiInv (N i A C : Nat) : Prop where
  prod : N = A * C
  posC : 0 < C
  small : ∀ q : Nat, q.Prime → q ∣ A → q < i
  large : ∀ q : Nat, q.Prime → q ∣ C → i ≤ q

/-- The sum accumulated by the loop of `crt` over the moduli `l`, the first at index `i`. -/
def crtSum (bez : Int → Int → Int) (a : List Int) (P : Int) : List Int → Nat → Int
  | [], _ => 0
  | n1 :: l, i => a.getD i 0 * (bez n1 (P / n1) * (P / n1)) + crtSum bez a P l (i + 1)

/-- The map `state` of `bsgs` after the baby steps `0, …, k - 1`. -/
def babyTable (g p : Int) : Nat → List (Option Int × Int)
  | 0 => []
  | k + 1 => (bigExp g (k : Int) (some p), (k : Int)) :: babyTable g p k

/-- The value of `q` in `bsgs` at the start of the giant step `i`. -/
def bsgsProbe (y g1 p : Int) : Nat → Int
  | 0 => y
  | i + 1 => (bsgsProbe y g1 p i * g1) % p

/-- The list `fs` is the complete prime factorization of `n`: every entry is a prime with an
exponent `≥ 1`, the primes are pairwise different, and the prime powers multiply to `n`. -/
def IsPrimeFactorization (fs : List factor) (n : Nat) : Prop :=
  (∀ f ∈ fs, 0 ≤ f.fact ∧ f.fact.toNat.Prime ∧ 1 ≤ f.exp) ∧
  fs.Pairwise (fun a b => a.fact ≠ b.fact) ∧
  (fs.map (fun f => f.fact ^ f.exp.toNat)).prod = (n : Int)


/-- Right-to-left binary exponentiation `acc * b ^ e mod p`, the evaluation scheme used to
compute modular powers of numbers of cryptographic size. -/
def powModLoop : Nat → Nat → Nat → Nat → Nat → Nat
  | 0, _, _, _, acc => acc
  | fuel + 1, b, e, p, acc =>
    if e = 0 then acc
    else powModLoop fuel (b * b % p) (e / 2) p (if e % 2 = 1 then acc * b % p else acc)

/-- A stand-in for the library primitives with which the statements about `kem.go` and
`oracle.go` are instantiated: a constant 32-byte digest and an AEAD that leaves the
payload as it is. -/
def plainCrypto : Crypto :=
  { Block := Bytes
    AEAD := Bytes
    sha256Sum256 := fun _ => List.replicate 32 0
    hmacSha256 := fun k _ => k
    aesNewCipher := fun k => .ok k
    cipherNewGCM := fun blk => .ok blk
    gcmSeal := fun _ _ pt => pt
    gcmOpen := fun _ _ ct => .ok ct }

/-- A scheme over the group of residues modulo 7 with the generator 3, for instantiating
the statements about `kem.go`. -/
def toyScheme : dhkemScheme :=
  { group := { P := some 7, G := some 3, Q := some 6, Name := "toy", BitSize := 3 } }

/-! ## Basic facts about the primitives -/

theorem bigMod_ok (x : Int) {y : Int} (h : y ≠ 0) : bigMod x y = .ok (x % y) := by
  simp [bigMod, h]

theorem bigDiv_ok (x : Int) {y : Int} (h : y ≠ 0) : bigDiv x y = .ok (x / y) := by
  simp [bigDiv, h]

theorem bigExp_mod (x : Int) {y m : Int} (hm : m ≠ 0) (hy : 0 ≤ y) :
    bigExp x y (some m) = some (x ^ y.toNat % m) := by
  simp [bigExp, hm, not_lt.mpr hy]

theorem bigExp_mod_nat (x : Int) (k : Nat) {m : Int} (hm : m ≠ 0) :
    bigExp x (k : Int) (some m) = some (x ^ k % m) := by
  rw [bigExp_mod x hm (Int.natCast_nonneg k)]; simp

theorem pure_eq_ok {α : Type} (a : α) : (pure a : Run α) = Except.ok a := rfl

theorem ok_bind {α β : Type} (a : α) (f : α → Run β) : (Except.ok a >>= f) = f a := rfl

theorem error_bind {α β : Type} (e : Fault) (f : α → Run β) :
    ((Except.error e : Run α) >>= f) = Except.error e := rfl

/-! ## es -/

theorem esLoop_spec (g y n : Int) (hn : 1 ≤ n) (fuel : Nat) :
    ∀ j : Nat, n.toNat < fuel + j → j ≤ n.toNat → (∀ k : Nat, k < j → g ^ k % n ≠ y) →
      ∃ r : Nat, esLoop fuel g y n (j : Int) = .ok (r : Int) ∧ (r : Int) ≤ n ∧
        (∀ k : Nat, k < r → g ^ k % n ≠ y) ∧ ((r : Int) < n → g ^ r % n = y) := by
  induction fuel with
  | zero => intro j h1 h2; omega
  | succ fuel ih =>
    intro j h1 h2 hprev
    have hn0 : n ≠ 0 := by omega
    unfold esLoop
    by_cases hjn : (j : Int) < n
    · rw [if_pos hjn, bigExp_mod_nat g j hn0]
      simp only [deref, ok_bind]
      by_cases hy : y = g ^ j % n
      · rw [if_pos hy]
        exact ⟨j, rfl, by omega, hprev, fun _ => hy.symm⟩
      · rw [if_neg hy]
        have := ih (j + 1) (by omega) (by omega) (by
          intro k hk
          rcases Nat.lt_succ_iff_lt_or_eq.mp hk with h | h
          · exact hprev k h
          · subst h; exact fun h => hy h.symm)
        simpa using this
    · rw [if_neg hjn]
      exact ⟨j, rfl, by omega, hprev, fun h => absurd h hjn⟩

/-- C7: for `n ≥ 1`, `es(g, y, n)` returns a number `r ≤ n`; no exponent below `r` solves
`g ^ k mod n = y`; if `r < n` then `r` is a solution (hence the smallest one); and `r < n` holds
exactly when some exponent in `[0, n)` is a solution, so `r = n` when there is none. -/
theorem es_smallest_or_sentinel (g y n : Int) (hn : 1 ≤ n) :
    ∃ r : Nat, es g y n = .ok (r : Int) ∧ (r : Int) ≤ n ∧
      (∀ k : Nat, k < r → g ^ k % n ≠ y) ∧ ((r : Int) < n → g ^ r % n = y) ∧
      ((r : Int) < n ↔ ∃ k : Nat, (k : Int) < n ∧ g ^ k % n = y) ∧
      ((¬ ∃ k : Nat, (k : Int) < n ∧ g ^ k % n = y) → (r : Int) = n) := by
  obtain ⟨r, h1, h2, h3, h4⟩ :=
    esLoop_spec g y n hn (n.toNat + 1) 0 (by omega) (by omega) (by intro k hk; omega)
  have hiff : (r : Int) < n ↔ ∃ k : Nat, (k : Int) < n ∧ g ^ k % n = y := by
    constructor
    · intro h; exact ⟨r, h, h4 h⟩
    · rintro ⟨k, hk, hs⟩
      by_contra hr
      exact h3 k (by omega) hs
  refine ⟨r, ?_, h2, h3, h4, hiff, ?_⟩
  · simpa [es] using h1
  · intro hno
    have : ¬ (r : Int) < n := fun h => hno (hiff.mp h)
    omega

theorem es_smallest_or_sentinel_witness :
    ∃ r : Nat, es 2 3 5 = .ok (r : Int) ∧ (r : Int) ≤ 5 ∧
      (∀ k : Nat, k < r → (2 : Int) ^ k % 5 ≠ 3) ∧ ((r : Int) < 5 → (2 : Int) ^ r % 5 = 3) ∧
      ((r : Int) < 5 ↔ ∃ k : Nat, (k : Int) < 5 ∧ (2 : Int) ^ k % 5 = 3) ∧
      ((¬ ∃ k : Nat, (k : Int) < 5 ∧ (2 : Int) ^ k % 5 = 3) → (r : Int) = 5) :=
  es_smallest_or_sentinel 2 3 5 (by decide)

/-- C10: `bsgs(0, y, p)` returns a nil value and the error "no solution in bsgs" for every `y`
and `p`; the guard is the first statement, nothing else is evaluated. -/
theorem bsgs_zero_base (y p : Int) :
    bsgs 0 y p = .ok (none, some GoError.noSolutionInBsgs) ∧
      GoError.noSolutionInBsgs.message = "no solution in bsgs" := by
  constructor
  · simp [bsgs, pure_eq_ok]
  · rfl

/-! ## phi -/

theorem isqrtAux_sq_le (n : Nat) : ∀ k, isqrtAux n k * isqrtAux n k ≤ n := by
  intro k
  induction k with
  | zero => simp [isqrtAux]
  | succ k ih =>
    unfold isqrtAux
    split
    · assumption
    · exact ih

theorem isqrtAux_ge (n : Nat) : ∀ k r, r ≤ k → r * r ≤ n → r ≤ isqrtAux n k := by
  intro k
  induction k with
  | zero => intro r h _; simp only [isqrtAux]; omega
  | succ k ih =>
    intro r hr hsq
    unfold isqrtAux
    split
    · exact hr
    · rename_i hk
      rcases Nat.lt_or_eq_of_le hr with h | h
      · exact ih r (by omega) hsq
      · subst h; exact absurd hsq hk

theorem isqrt_eq_sqrt (n : Nat) : isqrt n = Nat.sqrt n := by
  apply le_antisymm
  · exact Nat.le_sqrt.mpr (isqrtAux_sq_le n n)
  · exact isqrtAux_ge n n _ (Nat.sqrt_le_self n) (Nat.sqrt_le n)

theorem bigSqrt_natCast (n : Nat) : bigSqrt (n : Int) = .ok ((Nat.sqrt n : Nat) : Int) := by
  simp [bigSqrt, isqrt_eq_sqrt]

theorem divides_natCast (I C : Nat) (hI : I ≠ 0) :
    divides (I : Int) (C : Int) = .ok (decide (I ∣ C)) := by
  have h0 : (I : Int) ≠ 0 := by exact_mod_cast hI
  simp only [divides, bigMod_ok _ h0, ok_bind, pure_eq_ok]
  congr 1
  have : ((C : Int) % (I : Int) = 0) ↔ I ∣ C := by
    rw [← Int.natCast_mod]
    constructor
    · intro h; exact Nat.dvd_of_mod_eq_zero (by exact_mod_cast h)
    · intro h; exact_mod_cast Nat.mod_eq_zero_of_dvd h
  simp only [this]

theorem phiStrip_spec (I : Nat) (hI : 2 ≤ I) :
    ∀ fuel C : Nat, 0 < C → C < fuel →
      ∃ C1 k : Nat, phiStrip fuel (I : Int) (C : Int) = .ok (C1 : Int) ∧ C = I ^ k * C1 ∧
        ¬ I ∣ C1 ∧ 0 < C1 := by
  intro fuel
  induction fuel with
  | zero => intro C _ h; omega
  | succ fuel ih =>
    intro C hC hlt
    have h0 : (I : Int) ≠ 0 := by omega
    unfold phiStrip
    rw [divides_natCast I C (by omega)]
    by_cases hd : I ∣ C
    · simp only [ok_bind, hd, decide_True, if_true, bigDiv_ok _ h0]
      have hdiv : (C : Int) / (I : Int) = ((C / I : Nat) : Int) := by norm_cast
      rw [hdiv]
      have hpos : 0 < C / I := Nat.div_pos (Nat.le_of_dvd hC hd) (by omega)
      have hlt2 : C / I < C := Nat.div_lt_self hC (by omega)
      obtain ⟨C1, k, h1, h2, h3, h4⟩ := ih (C / I) hpos (by omega)
      refine ⟨C1, k + 1, h1, ?_, h3, h4⟩
      calc C = I * (C / I) := (Nat.mul_div_cancel' hd).symm
        _ = I * (I ^ k * C1) := by rw [← h2]
        _ = I ^ (k + 1) * C1 := by ring
    · simp only [ok_bind, hd, decide_False, pure_eq_ok]
      exact ⟨C, 0, by simp, by simp, hd, hC⟩

theorem PhiInv.coprime {N i A C : Nat} (h : PhiInv N i A C) : Nat.Coprime A C := by
  apply Nat.Coprime.symm
  apply Nat.coprime_of_dvd
  intro q hq hqC hqA
  have h1 := h.small q hq hqA
  have h2 := h.large q hq hqC
  omega

theorem phiLoop_spec (N m : Nat) :
    ∀ fuel i A C : Nat, 2 ≤ i → i ≤ m → m < fuel + i → PhiInv N i A C →
      ∃ A1 C1 : Nat, phiLoop fuel (m : Int) (i : Int) (C : Int) ((A.totient * C : Nat) : Int)
          = .ok ((C1 : Int), ((A1.totient * C1 : Nat) : Int)) ∧ PhiInv N m A1 C1 := by
  intro fuel
  induction fuel with
  | zero => intro i A C _ h1 h2; omega
  | succ fuel ih =>
    intro i A C hi him hfuel inv
    unfold phiLoop
    by_cases hlt : (i : Int) < (m : Int)
    · rw [if_pos hlt, divides_natCast i C (by omega)]
      have hlt1 : i < m := by exact_mod_cast hlt
      by_cases hd : i ∣ C
      · -- `i` is prime
        have hprime : i.Prime := by
          have hmf := Nat.minFac_prime (show i ≠ 1 by omega)
          have hle := inv.large _ hmf ((Nat.minFac_dvd i).trans hd)
          have : i.minFac = i := le_antisymm (Nat.minFac_le (by omega)) hle
          rw [← this]; exact hmf
        obtain ⟨C1, k, h1, h2, h3, h4⟩ := phiStrip_spec i hi (C + 1) C inv.posC (by omega)
        have hk : k ≠ 0 := by
          rintro rfl
          simp at h2
          rw [h2] at hd; exact h3 hd
        simp only [ok_bind, hd, decide_True, if_true, Int.natAbs_ofNat]
        rw [h1, ok_bind, bigDiv_ok _ (show (i : Int) ≠ 0 by omega), ok_bind]
        -- arithmetic of the update
        have hcop : Nat.Coprime A (i ^ k) := by
          apply Nat.Coprime.pow_right
          apply Nat.Coprime.symm
          rw [Nat.Prime.coprime_iff_not_dvd hprime]
          intro hA
          have := inv.small i hprime hA
          omega
        have htot : (A * i ^ k).totient = A.totient * (i ^ (k - 1) * (i - 1)) := by
          rw [Nat.totient_mul hcop, Nat.totient_prime_pow hprime (Nat.pos_of_ne_zero hk)]
        have hres : ((A.totient * C : Nat) : Int) - ((A.totient * C : Nat) : Int) / (i : Int)
            = (((A * i ^ k).totient * C1 : Nat) : Int) := by
          obtain ⟨k1, rfl⟩ : ∃ k1, k = k1 + 1 := ⟨k - 1, by omega⟩
          have hC : A.totient * C = i * (A.totient * (i ^ k1 * C1)) := by
            rw [h2]; ring
          have hi0 : (i : Int) ≠ 0 := by omega
          rw [htot, hC]
          push_cast
          rw [Int.mul_ediv_cancel_left _ hi0]
          have : ((i - 1 : Nat) : Int) = (i : Int) - 1 := by omega
          rw [this]
          ring
        rw [hres]
        have inv1 : PhiInv N (i + 1) (A * i ^ k) C1 := by
          refine ⟨?_, h4, ?_, ?_⟩
          · rw [inv.prod, h2]; ring
          · intro q hq hqd
            rcases (Nat.Prime.dvd_mul hq).mp hqd with h | h
            · have := inv.small q hq h; omega
            · have := (Nat.prime_dvd_prime_iff_eq hq hprime).mp (hq.dvd_of_dvd_pow h)
              omega
          · intro q hq hqd
            have hqC : q ∣ C := by rw [h2]; exact Dvd.dvd.mul_left hqd _
            have := inv.large q hq hqC
            have hne : q ≠ i := by rintro rfl; exact h3 hqd
            omega
        have := ih (i + 1) (A * i ^ k) C1 (by omega) (by omega) (by omega) inv1
        simpa using this
      · simp only [ok_bind, hd, decide_False]
        have inv1 : PhiInv N (i + 1) A C := by
          refine ⟨inv.prod, inv.posC, ?_, ?_⟩
          · intro q hq hqd; have := inv.small q hq hqd; omega
          · intro q hq hqd
            have := inv.large q hq hqd
            have hne : q ≠ i := by rintro rfl; exact hd hqd
            omega
        have := ih (i + 1) A C (by omega) (by omega) (by omega) inv1
        simpa using this
    · rw [if_neg hlt]
      have : i = m := by
        have : ¬ i < m := by exact_mod_cast hlt
        omega
      subst this
      exact ⟨A, C, rfl, inv⟩

/-- The value of `phi(n)` is Euler's totient of `n` for every positive `n`; no fault occurs. -/
theorem phi_eq_totient (N : Nat) (hN : 1 ≤ N) : phi (N : Int) = .ok ((N.totient : Nat) : Int) := by
  unfold phi
  rw [bigSqrt_natCast, ok_bind]
  have hm : (((Nat.sqrt N : Nat) : Int) + 1).toNat = Nat.sqrt N + 1 := by omega
  have hm2 : ((Nat.sqrt N : Nat) : Int) + 1 = ((Nat.sqrt N + 1 : Nat) : Int) := by push_cast; ring
  have hsq1 : 1 ≤ Nat.sqrt N := Nat.le_sqrt.mpr (by omega)
  have inv0 : PhiInv N 2 1 N := by
    refine ⟨by simp, by omega, ?_, ?_⟩
    · intro q hq hd
      have := Nat.le_of_dvd (by omega) hd
      have := hq.two_le
      omega
    · intro q hq _; exact hq.two_le
  obtain ⟨A, C, hloop, inv⟩ :=
    phiLoop_spec N (Nat.sqrt N + 1) (Nat.sqrt N + 1) 2 1 N (by omega) (by omega) (by omega) inv0
  simp only [Nat.totient_one, one_mul] at hloop
  dsimp only
  rw [hm, hm2]
  have h2 : ((2 : Nat) : Int) = 2 := rfl
  rw [h2] at hloop
  rw [hloop]
  simp only [ok_bind]
  have hcop := inv.coprime
  have hNtot : N.totient = A.totient * C.totient := by
    rw [inv.prod, Nat.totient_mul hcop]
  by_cases hC : (C : Int) > 1
  · rw [if_pos hC]
    have hC1 : 1 < C := by exact_mod_cast hC
    have hCprime : C.Prime := by
      have hmf := Nat.minFac_prime (show C ≠ 1 by omega)
      have hle := inv.large _ hmf (Nat.minFac_dvd C)
      by_contra hnp
      have hsq := Nat.minFac_sq_le_self (by omega) hnp
      have hCN : C ≤ N := by
        rw [inv.prod]
        have hA : 0 < A := by
          rcases Nat.eq_zero_or_pos A with h | h
          · rw [inv.prod, h] at hN; omega
          · exact h
        exact Nat.le_mul_of_pos_left _ hA
      have : (Nat.sqrt N + 1) ^ 2 ≤ C.minFac ^ 2 := Nat.pow_le_pow_left hle 2
      have h3 : N < (Nat.sqrt N + 1) ^ 2 := by
        have := Nat.lt_succ_sqrt N
        simpa [sq] using this
      omega
    rw [bigDiv_ok _ (show (C : Int) ≠ 0 by omega), ok_bind, pure_eq_ok]
    congr 1
    rw [hNtot, Nat.totient_prime hCprime]
    push_cast
    rw [Int.mul_ediv_cancel _ (show (C : Int) ≠ 0 by omega)]
    have : ((C - 1 : Nat) : Int) = (C : Int) - 1 := by omega
    rw [this]; ring
  · rw [if_neg hC, pure_eq_ok]
    have hC1 : C = 1 := by
      have := inv.posC
      have : ¬ 1 < C := by exact_mod_cast hC
      omega
    congr 1
    rw [hNtot, hC1]
    simp

/-- C3: `phi(n)` is Euler's totient for every `n ≥ 1`: the number of integers in `[1, n]` coprime
to `n`; in particular `phi(7) = 6`, `phi(11) = 10` and `phi(1419857) = 1336336`. -/
theorem phi_counts_coprimes :
    (∀ n : Nat, 1 ≤ n →
      phi (n : Int) =
        .ok (((Finset.filter (fun k => Nat.Coprime n k) (Finset.Icc 1 n)).card : Nat) : Int)) ∧
    phi 7 = .ok 6 ∧ phi 11 = .ok 10 ∧ phi 1419857 = .ok 1336336 := by
  refine ⟨?_, ?_, ?_, ?_⟩
  · intro n hn
    rw [phi_eq_totient n hn]
    congr 2
    rw [← Nat.filter_coprime_Ico_eq_totient n 1, add_comm 1 n, Nat.Ico_succ_right]
  · have := phi_eq_totient 7 (by omega)
    rw [Nat.totient_prime (by norm_num)] at this
    exact this
  · have := phi_eq_totient 11 (by omega)
    rw [Nat.totient_prime (by norm_num)] at this
    exact this
  · have := phi_eq_totient (17 ^ 5) (by norm_num)
    rw [Nat.totient_prime_pow (by norm_num) (by omega)] at this
    norm_num at this
    exact this

theorem phi_counts_coprimes_witness :
    phi ((12 : Nat) : Int) =
      .ok (((Finset.filter (fun k => Nat.Coprime 12 k) (Finset.Icc 1 12)).card : Nat) : Int) :=
  phi_counts_coprimes.1 12 (by norm_num)

/-! ## crt -/

theorem foldl_mul_eq_prod (l : List Int) (a : Int) :
    l.foldl (fun acc x => acc * x) a = a * l.prod := by
  induction l generalizing a with
  | nil => simp
  | cons b l ih => simp [ih, mul_assoc]

theorem list_prod_pos {l : List Int} (h : ∀ m ∈ l, 0 < m) : 0 < l.prod := by
  induction l with
  | nil => simp
  | cons b l ih =>
    rw [List.prod_cons]
    exact mul_pos (h b (by simp)) (ih (fun m hm => h m (by simp [hm])))

theorem gcd_list_prod_eq_one_iff (u : Int) (l : List Int) :
    Int.gcd u l.prod = 1 ↔ ∀ x ∈ l, Int.gcd u x = 1 := by
  induction l with
  | nil => simp
  | cons b l ih =>
    rw [List.prod_cons]
    simp only [List.mem_cons, forall_eq_or_imp]
    rw [← ih]
    simp only [← Int.isCoprime_iff_gcd_eq_one]
    exact IsCoprime.mul_right_iff

/-- The check made by `crt` on the modulus `n1` passes. -/
theorem crtGood_iff_of_split (l1 l2 : List Int) (ni : Int) (hni : ni ≠ 0) :
    Int.gcd ni ((l1 ++ ni :: l2).prod / ni) = 1 ↔ ∀ x ∈ l1 ++ l2, Int.gcd ni x = 1 := by
  have : (l1 ++ ni :: l2).prod / ni = (l1 ++ l2).prod := by
    have h : (l1 ++ ni :: l2).prod = ni * (l1 ++ l2).prod := by
      simp only [List.prod_append, List.prod_cons]; ring
    rw [h, Int.mul_ediv_cancel_left _ hni]
  rw [this, gcd_list_prod_eq_one_iff]

theorem list_split_at (n : List Int) (i : Nat) (hi : i < n.length) :
    n = n.take i ++ n[i] :: n.drop (i + 1) := by
  rw [← List.drop_eq_getElem_cons hi, List.take_append_drop]

theorem mem_take_append_drop_iff (n : List Int) (i : Nat) (x : Int) :
    x ∈ n.take i ++ n.drop (i + 1) ↔ ∃ j, ∃ hj : j < n.length, j ≠ i ∧ n[j] = x := by
  rw [← List.eraseIdx_eq_take_drop_succ, List.mem_eraseIdx_iff_getElem]

/-- The check of `crt` at index `i` passes exactly when `n[i]` is coprime to every other
modulus. -/
theorem crtGood_iff (n : List Int) (hpos : ∀ m ∈ n, 0 < m) (i : Nat) (hi : i < n.length) :
    Int.gcd n[i] (n.prod / n[i]) = 1 ↔
      ∀ j, ∀ hj : j < n.length, j ≠ i → Int.gcd n[i] n[j] = 1 := by
  have hni : n[i] ≠ 0 := (hpos _ (List.getElem_mem hi)).ne'
  have h := crtGood_iff_of_split (n.take i) (n.drop (i + 1)) n[i] hni
  rw [← list_split_at n i hi] at h
  rw [h]
  constructor
  · intro hx j hj hji
    exact hx _ ((mem_take_append_drop_iff n i _).mpr ⟨j, hj, hji, rfl⟩)
  · intro hx x hmem
    obtain ⟨j, hj, hji, rfl⟩ := (mem_take_append_drop_iff n i x).mp hmem
    exact hx j hj hji

theorem crtLoop_good (bez : Int → Int → Int) (a : List Int) (P : Int) (hP : P ≠ 0) :
    ∀ (l : List Int) (i : Nat) (x : Int), i + l.length ≤ a.length →
      (∀ n1 ∈ l, n1 ≠ 0 ∧ Int.gcd n1 (P / n1) = 1) →
      crtLoop bez a P l i x = .ok (some ((x + crtSum bez a P l i) % P), P, none) := by
  intro l
  induction l with
  | nil =>
    intro i x _ _
    simp [crtLoop, crtSum, bigMod_ok _ hP, ok_bind, pure_eq_ok]
  | cons n1 l ih =>
    intro i x hlen hgood
    obtain ⟨h0, hg⟩ := hgood n1 (by simp)
    have hi : i < a.length := by simp at hlen; omega
    unfold crtLoop
    rw [bigDiv_ok _ h0, ok_bind]
    have hz : ¬ ((Int.gcd n1 (P / n1) : Nat) : Int) ≠ 1 := by rw [hg]; simp
    simp only [hz, if_false]
    rw [List.getElem?_eq_getElem hi]
    simp only []
    rw [ih (i + 1) _ (by simp at hlen; omega) (fun m hm => hgood m (by simp [hm]))]
    simp only [crtSum, List.getD_eq_getElem a 0 hi]
    congr 3
    rw [add_assoc]

theorem crtLoop_bad (bez : Int → Int → Int) (a : List Int) (P : Int) :
    ∀ (l1 : List Int) (nb : Int) (l2 : List Int) (i : Nat) (x : Int),
      i + l1.length ≤ a.length →
      (∀ n1 ∈ l1, n1 ≠ 0 ∧ Int.gcd n1 (P / n1) = 1) → nb ≠ 0 → Int.gcd nb (P / nb) ≠ 1 →
      crtLoop bez a P (l1 ++ nb :: l2) i x = .ok (none, P, some (GoError.notCoprime nb)) := by
  intro l1
  induction l1 with
  | nil =>
    intro nb l2 i x _ _ h0 hb
    simp only [List.nil_append]
    unfold crtLoop
    rw [bigDiv_ok _ h0, ok_bind]
    have hz : ((Int.gcd nb (P / nb) : Nat) : Int) ≠ 1 := by exact_mod_cast hb
    simp only [hz, ne_eq, not_false_eq_true, if_true, pure_eq_ok]
  | cons n1 l ih =>
    intro nb l2 i x hlen hgood h0 hb
    obtain ⟨h1, hg⟩ := hgood n1 (by simp)
    have hi : i < a.length := by simp at hlen; omega
    simp only [List.cons_append]
    unfold crtLoop
    rw [bigDiv_ok _ h1, ok_bind]
    have hz : ¬ ((Int.gcd n1 (P / n1) : Nat) : Int) ≠ 1 := by rw [hg]; simp
    simp only [hz, if_false]
    rw [List.getElem?_eq_getElem hi]
    simp only []
    exact ih nb l2 (i + 1) _ (by simp at hlen; omega) (fun m hm => hgood m (by simp [hm])) h0 hb

theorem crtWith_eq_loop (bez : Int → Int → Int) (a n : List Int) (hne : n ≠ []) :
    crtWith bez a n = crtLoop bez a n.prod n 0 0 := by
  cases n with
  | nil => exact absurd rfl hne
  | cons n0 rest => simp [crtWith, foldl_mul_eq_prod]

theorem crtSum_append (bez : Int → Int → Int) (a : List Int) (P : Int) :
    ∀ (l1 l2 : List Int) (i : Nat),
      crtSum bez a P (l1 ++ l2) i = crtSum bez a P l1 i + crtSum bez a P l2 (i + l1.length) := by
  intro l1
  induction l1 with
  | nil => intro l2 i; simp [crtSum]
  | cons b l ih =>
    intro l2 i
    show crtSum bez a P (b :: (l ++ l2)) i = _
    simp only [crtSum, List.length_cons]
    rw [ih l2 (i + 1)]
    have : i + 1 + l.length = i + (l.length + 1) := by omega
    rw [this]; ring

theorem dvd_crtSum (bez : Int → Int → Int) (a : List Int) (P u : Int) :
    ∀ (l : List Int) (i : Nat), (∀ n1 ∈ l, u ∣ P / n1) → u ∣ crtSum bez a P l i := by
  intro l
  induction l with
  | nil => intro i _; simp [crtSum]
  | cons b l ih =>
    intro i h
    simp only [crtSum]
    apply dvd_add
    · exact Dvd.dvd.mul_left (Dvd.dvd.mul_left (h b (by simp)) _) _
    · exact ih (i + 1) (fun m hm => h m (by simp [hm]))

theorem dvd_prod_div_of_mem (l1 l2 : List Int) (u n1 : Int) (h0 : n1 ≠ 0)
    (hmem : n1 ∈ l1 ++ l2) : u ∣ (l1 ++ u :: l2).prod / n1 := by
  have hd : n1 ∣ (l1 ++ l2).prod := List.dvd_prod hmem
  obtain ⟨c, hc⟩ := hd
  have h : (l1 ++ u :: l2).prod = n1 * (u * c) := by
    have : (l1 ++ u :: l2).prod = u * (l1 ++ l2).prod := by
      simp only [List.prod_append, List.prod_cons]; ring
    rw [this, hc]; ring
  rw [h, Int.mul_ediv_cancel_left _ h0]
  exact Dvd.intro _ rfl

/-- The accumulated sum is congruent to `a[i]` modulo `n[i]` when the check at `i` passes. -/
theorem crtSum_mod (bez : Int → Int → Int)
    (hbez : ∀ u v : Int, ∃ t : Int, u * t + v * bez u v = Int.gcd u v)
    (a n : List Int) (hpos : ∀ m ∈ n, 0 < m) (i : Nat) (hi : i < n.length)
    (hia : i < a.length) (hg : Int.gcd n[i] (n.prod / n[i]) = 1) :
    crtSum bez a n.prod n 0 % n[i] = a[i] % n[i] := by
  have hsplit := list_split_at n i hi
  have hne0 : ∀ m ∈ n, m ≠ 0 := fun m hm => (hpos m hm).ne'
  have hlen : (n.take i).length = i := by simp; omega
  have hsum : crtSum bez a n.prod n 0 =
      crtSum bez a n.prod (n.take i) 0
        + (a[i] * (bez n[i] (n.prod / n[i]) * (n.prod / n[i]))
            + crtSum bez a n.prod (n.drop (i + 1)) (i + 1)) := by
    conv_lhs => rw [hsplit]
    rw [crtSum_append, hlen]
    simp only [crtSum, zero_add, List.getD_eq_getElem a 0 hia]
    congr 3
    all_goals rw [← hsplit]
  have hd1 : n[i] ∣ crtSum bez a n.prod (n.take i) 0 := by
    apply dvd_crtSum
    intro n1 hn1
    have := dvd_prod_div_of_mem (n.take i) (n.drop (i + 1)) n[i] n1
      (hne0 n1 (List.mem_of_mem_take hn1)) (List.mem_append_left _ hn1)
    rwa [← hsplit] at this
  have hd2 : n[i] ∣ crtSum bez a n.prod (n.drop (i + 1)) (i + 1) := by
    apply dvd_crtSum
    intro n1 hn1
    have := dvd_prod_div_of_mem (n.take i) (n.drop (i + 1)) n[i] n1
      (hne0 n1 (List.mem_of_mem_drop hn1)) (List.mem_append_right _ hn1)
    rwa [← hsplit] at this
  obtain ⟨t, ht⟩ := hbez n[i] (n.prod / n[i])
  rw [hg] at ht
  have hone : bez n[i] (n.prod / n[i]) * (n.prod / n[i]) = 1 - n[i] * t := by
    have : (n.prod / n[i]) * bez n[i] (n.prod / n[i]) = 1 - n[i] * t := by
      have h1 : ((1 : Nat) : Int) = 1 := rfl
      rw [h1] at ht
      linarith
    rw [mul_comm]; exact this
  obtain ⟨c1, hc1⟩ := hd1
  obtain ⟨c2, hc2⟩ := hd2
  rw [hsum, hone, hc1, hc2]
  have : n[i] * c1 + (a[i] * (1 - n[i] * t) + n[i] * c2) = a[i] + n[i] * (c1 - a[i] * t + c2) := by
    ring
  rw [this, Int.add_mul_emod_self_left]

theorem exists_first_failing {α : Type} (Q : α → Prop) (l : List α) :
    (∀ x ∈ l, Q x) ∨ ∃ l1 b l2, l = l1 ++ b :: l2 ∧ (∀ x ∈ l1, Q x) ∧ ¬ Q b := by
  induction l with
  | nil => left; simp
  | cons c l ih =>
    by_cases hc : Q c
    · rcases ih with h | ⟨l1, b, l2, h1, h2, h3⟩
      · left
        intro x hx
        rcases List.mem_cons.mp hx with h' | h'
        · rw [h']; exact hc
        · exact h x h'
      · right
        refine ⟨c :: l1, b, l2, by rw [h1]; rfl, ?_, h3⟩
        intro x hx
        rcases List.mem_cons.mp hx with h' | h'
        · rw [h']; exact hc
        · exact h2 x h'
    · right
      exact ⟨[], c, l, rfl, by simp, hc⟩

theorem crtGood_of_pairwise (n : List Int) (hpos : ∀ m ∈ n, 0 < m)
    (hcop : ∀ i j, ∀ hi : i < n.length, ∀ hj : j < n.length, i ≠ j → Int.gcd n[i] n[j] = 1) :
    ∀ n1 ∈ n, n1 ≠ 0 ∧ Int.gcd n1 (n.prod / n1) = 1 := by
  intro n1 hn1
  obtain ⟨i, hi, rfl⟩ := List.getElem_of_mem hn1
  refine ⟨(hpos _ hn1).ne', (crtGood_iff n hpos i hi).mpr ?_⟩
  intro j hj hji
  exact hcop i j hi hj (Ne.symm hji)

/-- The solution returned by `crt` on pairwise coprime positive moduli. -/
theorem crtWith_solution (bez : Int → Int → Int)
    (hbez : ∀ u v : Int, ∃ t : Int, u * t + v * bez u v = Int.gcd u v)
    (a n : List Int) (hne : n ≠ []) (hlen : a.length = n.length)
    (hpos : ∀ m ∈ n, 0 < m)
    (hcop : ∀ i j, ∀ hi : i < n.length, ∀ hj : j < n.length, i ≠ j → Int.gcd n[i] n[j] = 1) :
    ∃ x : Int, crtWith bez a n = .ok (some x, n.prod, none) ∧ 0 ≤ x ∧ x < n.prod ∧
      ∀ i, ∀ hi : i < n.length, ∀ hia : i < a.length,
        x % n[i] = a[i] % n[i] ∧ (0 ≤ a[i] → a[i] < n[i] → x % n[i] = a[i]) := by
  have hP : 0 < n.prod := list_prod_pos hpos
  have hgood := crtGood_of_pairwise n hpos hcop
  refine ⟨(0 + crtSum bez a n.prod n 0) % n.prod, ?_, Int.emod_nonneg _ hP.ne',
    Int.emod_lt_of_pos _ hP, ?_⟩
  · rw [crtWith_eq_loop bez a n hne]
    exact crtLoop_good bez a n.prod hP.ne' n 0 0 (by omega) hgood
  · intro i hi hia
    have hdvd : n[i] ∣ n.prod := List.dvd_prod (List.getElem_mem hi)
    have hmod : (0 + crtSum bez a n.prod n 0) % n.prod % n[i] = a[i] % n[i] := by
      rw [zero_add, Int.emod_emod_of_dvd _ hdvd]
      exact crtSum_mod bez hbez a n hpos i hi hia (hgood _ (List.getElem_mem hi)).2
    refine ⟨hmod, fun h0 h1 => ?_⟩
    rw [hmod, Int.emod_eq_of_lt h0 h1]

theorem prod_dvd_of_pairwise_coprime (N : List Int) (z : Int)
    (hpw : N.Pairwise (fun a b => Int.gcd a b = 1)) (h : ∀ m ∈ N, m ∣ z) : N.prod ∣ z := by
  induction N with
  | nil => simp
  | cons a l ih =>
    rw [List.pairwise_cons] at hpw
    rw [List.prod_cons]
    apply IsCoprime.mul_dvd
    · rw [Int.isCoprime_iff_gcd_eq_one, gcd_list_prod_eq_one_iff]
      exact hpw.1
    · exact h a (by simp)
    · exact ih hpw.2 (fun m hm => h m (by simp [hm]))

/-- Two solutions of the same congruences in `[0, N)` are equal. -/
theorem crt_solution_unique (n : List Int)
    (hcop : ∀ i j, ∀ hi : i < n.length, ∀ hj : j < n.length, i ≠ j → Int.gcd n[i] n[j] = 1)
    (x x1 : Int) (hx0 : 0 ≤ x) (hx : x < n.prod) (hy0 : 0 ≤ x1) (hy : x1 < n.prod)
    (hmod : ∀ i, ∀ hi : i < n.length, x % n[i] = x1 % n[i]) : x = x1 := by
  have hpw : n.Pairwise (fun a b => Int.gcd a b = 1) := by
    rw [List.pairwise_iff_getElem]
    intro i j hi hj hij
    exact hcop i j hi hj (by omega)
  have hdvd : n.prod ∣ x - x1 := by
    apply prod_dvd_of_pairwise_coprime n _ hpw
    intro m hm
    obtain ⟨i, hi, rfl⟩ := List.getElem_of_mem hm
    exact Int.ModEq.dvd (Eq.symm (hmod i hi))
  have hz : x - x1 = 0 := by
    apply Int.eq_zero_of_abs_lt_dvd hdvd
    rw [abs_lt]
    constructor <;> omega
  omega

/-- C1: for a non-empty list of positive, pairwise coprime moduli and as many residues,
`crt(a, n)` returns no error and the pair `(x, N)` with `N` the product of the moduli,
`0 ≤ x < N` and `x ≡ a[i] (mod n[i])` for every `i`, so that `x mod n[i] = a[i]` when
`0 ≤ a[i] < n[i]`. The result is the same for every Bézout cofactor `bez` that `GCD` may
deliver (`crt` is the instance with the cofactor of the extended Euclidean algorithm). -/
theorem crt_correct (bez : Int → Int → Int)
    (hbez : ∀ u v : Int, ∃ t : Int, u * t + v * bez u v = Int.gcd u v)
    (a n : List Int) (hne : n ≠ []) (hlen : a.length = n.length)
    (hpos : ∀ m ∈ n, 0 < m)
    (hcop : ∀ i j, ∀ hi : i < n.length, ∀ hj : j < n.length, i ≠ j → Int.gcd n[i] n[j] = 1) :
    ∃ x : Int, crtWith bez a n = .ok (some x, n.prod, none) ∧
      crt a n = .ok (some x, n.prod, none) ∧ 0 ≤ x ∧ x < n.prod ∧
      ∀ i, ∀ hi : i < n.length, ∀ hia : i < a.length,
        x % n[i] = a[i] % n[i] ∧ (0 ≤ a[i] → a[i] < n[i] → x % n[i] = a[i]) := by
  obtain ⟨x, h1, h2, h3, h4⟩ := crtWith_solution bez hbez a n hne hlen hpos hcop
  obtain ⟨x1, k1, k2, k3, k4⟩ := crtWith_solution Int.gcdB
    (fun u v => ⟨Int.gcdA u v, (Int.gcd_eq_gcd_ab u v).symm⟩) a n hne hlen hpos hcop
  have hxx : x = x1 :=
    crt_solution_unique n hcop x x1 h2 h3 k2 k3
      (fun i hi => (h4 i hi (by omega)).1.trans (k4 i hi (by omega)).1.symm)
  refine ⟨x, h1, ?_, h2, h3, h4⟩
  rw [hxx]
  exact k1

theorem crt_correct_witness :
    ∃ x : Int, crtWith Int.gcdB [2, 3] [3, 5] = .ok (some x, [3, 5].prod, none) ∧
      crt [2, 3] [3, 5] = .ok (some x, [3, 5].prod, none) ∧ 0 ≤ x ∧
      x < ([3, 5] : List Int).prod ∧
      ∀ i, ∀ _ : i < ([3, 5] : List Int).length, ∀ hia : i < ([2, 3] : List Int).length,
        x % ([3, 5] : List Int)[i] = ([2, 3] : List Int)[i] % ([3, 5] : List Int)[i] ∧
        (0 ≤ ([2, 3] : List Int)[i] → ([2, 3] : List Int)[i] < ([3, 5] : List Int)[i] →
          x % ([3, 5] : List Int)[i] = ([2, 3] : List Int)[i]) :=
  crt_correct Int.gcdB (fun u v => ⟨Int.gcdA u v, (Int.gcd_eq_gcd_ab u v).symm⟩)
    [2, 3] [3, 5] (by simp) rfl (by simp) (by
      intro i j hi hj hij
      have hi2 : i < 2 := hi
      have hj2 : j < 2 := hj
      interval_cases i <;> interval_cases j <;> first | exact absurd rfl hij | norm_num)

/-- C2: for a non-empty list of positive moduli and as many residues, `crt` returns normally;
it returns an error exactly when the moduli are not pairwise coprime; with an error the
solution is nil and the error names `n[i]` for the first index `i` at which `n[i]` has a common
factor with another modulus; without an error the solution is a number. -/
theorem crt_error_iff (bez : Int → Int → Int) (a n : List Int) (hne : n ≠ [])
    (hlen : a.length = n.length) (hpos : ∀ m ∈ n, 0 < m) :
    ∃ r : Option Int × Int × Option GoError, crtWith bez a n = .ok r ∧
      ((∃ e, r.2.2 = some e) ↔
        ¬ ∀ i j, ∀ hi : i < n.length, ∀ hj : j < n.length, i ≠ j → Int.gcd n[i] n[j] = 1) ∧
      (∀ e, r.2.2 = some e → r.1 = none ∧
        ∃ i, ∃ hi : i < n.length, e = GoError.notCoprime n[i] ∧
          e.message = toString n[i] ++ " not coprime" ∧
          (∃ j, ∃ hj : j < n.length, j ≠ i ∧ Int.gcd n[i] n[j] ≠ 1) ∧
          ∀ k, ∀ hk : k < n.length, k < i →
            ∀ j, ∀ hj : j < n.length, j ≠ k → Int.gcd n[k] n[j] = 1) ∧
      (r.2.2 = none → ∃ x, r.1 = some x) := by
  have hP : 0 < n.prod := list_prod_pos hpos
  rw [crtWith_eq_loop bez a n hne]
  rcases exists_first_failing (fun n1 : Int => n1 ≠ 0 ∧ Int.gcd n1 (n.prod / n1) = 1) n with
    hall | ⟨l1, b, l2, hsplit, hl1, hb⟩
  · -- every check passes
    refine ⟨_, crtLoop_good bez a n.prod hP.ne' n 0 0 (by omega) hall, ?_, ?_, ?_⟩
    · constructor
      · rintro ⟨e, he⟩; cases he
      · intro hno
        exfalso; apply hno
        intro i j hi hj hij
        exact (crtGood_iff n hpos i hi).mp (hall _ (List.getElem_mem hi)).2 j hj (Ne.symm hij)
    · intro e he; simp at he
    · intro _; exact ⟨_, rfl⟩
  · -- the check fails first at `b`
    have hb0 : b ≠ 0 := (hpos b (by rw [hsplit]; simp)).ne'
    have hbad : Int.gcd b (n.prod / b) ≠ 1 := fun h => hb ⟨hb0, h⟩
    have hi : l1.length < n.length := by rw [hsplit]; simp
    have hnb : n[l1.length] = b := by
      subst hsplit
      rw [List.getElem_append_right (le_refl _)]
      simp
    have hloop : crtLoop bez a n.prod n 0 0 = .ok (none, n.prod, some (GoError.notCoprime b)) := by
      have := crtLoop_bad bez a n.prod l1 b l2 0 0 (by omega) hl1 hb0 hbad
      rwa [← hsplit] at this
    have hshare : ∃ j, ∃ hj : j < n.length, j ≠ l1.length ∧ Int.gcd n[l1.length] n[j] ≠ 1 := by
      by_contra hno
      push_neg at hno
      apply hbad
      have := (crtGood_iff n hpos l1.length hi).mpr hno
      rwa [hnb] at this
    refine ⟨_, hloop, ?_, ?_, ?_⟩
    · refine ⟨fun _ => ?_, fun _ => ⟨_, rfl⟩⟩
      intro hcop
      obtain ⟨j, hj, hne', hg⟩ := hshare
      exact hg (hcop _ _ hi hj (Ne.symm hne'))
    · intro e he
      simp only [Option.some.injEq] at he
      refine ⟨rfl, l1.length, hi, by rw [← he, hnb], by rw [← he, hnb]; rfl, hshare, ?_⟩
      intro k hk hkl j hj hjk
      have hmem : n[k] ∈ l1 := by
        have : n[k] = l1[k] := by subst hsplit; exact List.getElem_append_left hkl
        rw [this]; exact List.getElem_mem hkl
      exact (crtGood_iff n hpos k hk).mp (hl1 _ hmem).2 j hj hjk
    · intro h; simp at h

theorem crt_error_iff_witness :
    ∃ r : Option Int × Int × Option GoError, crt [2, 3] [6, 4] = .ok r ∧
      ((∃ e, r.2.2 = some e) ↔
        ¬ ∀ i j, ∀ hi : i < ([6, 4] : List Int).length, ∀ hj : j < ([6, 4] : List Int).length,
          i ≠ j → Int.gcd ([6, 4] : List Int)[i] ([6, 4] : List Int)[j] = 1) ∧
      (∀ e, r.2.2 = some e → r.1 = none ∧
        ∃ i, ∃ hi : i < ([6, 4] : List Int).length, e = GoError.notCoprime ([6, 4] : List Int)[i] ∧
          e.message = toString ([6, 4] : List Int)[i] ++ " not coprime" ∧
          (∃ j, ∃ hj : j < ([6, 4] : List Int).length,
            j ≠ i ∧ Int.gcd ([6, 4] : List Int)[i] ([6, 4] : List Int)[j] ≠ 1) ∧
          ∀ k, ∀ hk : k < ([6, 4] : List Int).length, k < i →
            ∀ j, ∀ hj : j < ([6, 4] : List Int).length,
              j ≠ k → Int.gcd ([6, 4] : List Int)[k] ([6, 4] : List Int)[j] = 1) ∧
      (r.2.2 = none → ∃ x, r.1 = some x) :=
  crt_error_iff Int.gcdB [2, 3] [6, 4] (by simp) rfl (by simp)

/-! ## bsgs: the nil inverse -/

/-- C9 (failing input): `bsgs(2, 3, 4)` has `g ≠ 0`, `p ≥ 2` and `0 ≤ y < p`, but `g^m mod p = 0`
has no inverse modulo `4`, `ModInverse` yields nil, the first probe misses the table, and
`q.Mul(q, g1)` dereferences the nil pointer: the call aborts instead of returning an error. -/
theorem bsgs_nil_inverse_aborts :
    bsgs 2 3 4 = .error Fault.nilDereference ∧ bigModInverse 0 4 = none ∧
      bigExp 2 2 (some 4) = some 0 := by
  decide

/-! ## bsgs: the loops -/

theorem bsgsBaby_eq (g p : Int) (M : Nat) :
    ∀ fuel j : Nat, j ≤ M → M < fuel + j →
      bsgsBaby fuel g p (M : Int) (j : Int) (babyTable g p j) = .ok (babyTable g p M) := by
  intro fuel
  induction fuel with
  | zero => intro j h1 h2; omega
  | succ fuel ih =>
    intro j h1 h2
    unfold bsgsBaby
    by_cases hlt : (j : Int) < (M : Int)
    · rw [if_pos hlt]
      have := ih (j + 1) (by omega) (by omega)
      simpa [babyTable] using this
    · rw [if_neg hlt]
      have : j = M := by omega
      rw [this]; rfl

theorem lookup_babyTable (g p q : Int) :
    ∀ k : Nat,
      ((babyTable g p k).lookup (some q) = none ∧
        ∀ j : Nat, j < k → bigExp g (j : Int) (some p) ≠ some q) ∨
      (∃ j0 : Nat, j0 < k ∧ (babyTable g p k).lookup (some q) = some (j0 : Int) ∧
        bigExp g (j0 : Int) (some p) = some q ∧
        ∀ j : Nat, j0 < j → j < k → bigExp g (j : Int) (some p) ≠ some q) := by
  intro k
  induction k with
  | zero => left; simp [babyTable]
  | succ k ih =>
    by_cases hk : bigExp g (k : Int) (some p) = some q
    · right
      refine ⟨k, by omega, ?_, hk, fun j h1 h2 => by omega⟩
      simp [babyTable, List.lookup, hk]
    · have hbeq : (some q == bigExp g (k : Int) (some p)) = false := by
        simp only [beq_eq_false_iff_ne, ne_eq]
        exact fun h => hk h.symm
      rcases ih with ⟨h1, h2⟩ | ⟨j0, h1, h2, h3, h4⟩
      · left
        refine ⟨?_, ?_⟩
        · simp only [babyTable, List.lookup, hbeq]; exact h1
        · intro j hj
          rcases Nat.lt_succ_iff_lt_or_eq.mp hj with h | h
          · exact h2 j h
          · rw [h]; exact hk
      · right
        refine ⟨j0, by omega, ?_, h3, ?_⟩
        · simp only [babyTable, List.lookup, hbeq]; exact h2
        · intro j hj1 hj2
          rcases Nat.lt_succ_iff_lt_or_eq.mp hj2 with h | h
          · exact h4 j hj1 h
          · rw [h]; exact hk

theorem bsgsGiant_hit (p : Int) (hp : p ≠ 0) (M : Nat) (y g1 : Int)
    (T : List (Option Int × Int)) (i0 : Nat) (j0 : Int) (hi0 : i0 < M)
    (hmiss : ∀ i : Nat, i < i0 → T.lookup (some (bsgsProbe y g1 p i)) = none)
    (hhit : T.lookup (some (bsgsProbe y g1 p i0)) = some j0) :
    ∀ fuel i : Nat, i ≤ i0 → M < fuel + i →
      bsgsGiant fuel p (M : Int) (some g1) T (i : Int) (bsgsProbe y g1 p i)
        = .ok (some (((M : Int) * (i0 : Int) + j0) % p), none) := by
  intro fuel
  induction fuel with
  | zero => intro i h1 h2; omega
  | succ fuel ih =>
    intro i h1 h2
    unfold bsgsGiant
    have hlt : (i : Int) < (M : Int) := by omega
    rw [if_pos hlt]
    rcases Nat.lt_or_eq_of_le h1 with h | h
    · rw [hmiss i h]
      simp only [deref, ok_bind, bigMod_ok _ hp]
      have := ih (i + 1) (by omega) (by omega)
      simpa [bsgsProbe] using this
    · subst h
      rw [hhit]
      simp only [bigMod_ok _ hp, ok_bind, pure_eq_ok]

theorem bsgsGiant_miss (p : Int) (hp : p ≠ 0) (M : Nat) (y g1 : Int)
    (T : List (Option Int × Int))
    (hmiss : ∀ i : Nat, i < M → T.lookup (some (bsgsProbe y g1 p i)) = none) :
    ∀ fuel i : Nat, i ≤ M → M < fuel + i →
      bsgsGiant fuel p (M : Int) (some g1) T (i : Int) (bsgsProbe y g1 p i)
        = .ok (none, some GoError.notFoundByBsgs) := by
  intro fuel
  induction fuel with
  | zero => intro i h1 h2; omega
  | succ fuel ih =>
    intro i h1 h2
    unfold bsgsGiant
    rcases Nat.lt_or_eq_of_le h1 with h | h
    · have hlt : (i : Int) < (M : Int) := by omega
      rw [if_pos hlt, hmiss i h]
      simp only [deref, ok_bind, bigMod_ok _ hp]
      have := ih (i + 1) (by omega) (by omega)
      simpa [bsgsProbe] using this
    · subst h
      rw [if_neg (lt_irrefl _)]
      rfl

/-- Contract of `ModInverse` for a modulus `P ≥ 1` and an invertible argument. -/
theorem bigModInverse_spec (a : Int) (P : Nat) (hP : 1 ≤ P) (hcop : Int.gcd a P = 1) :
    ∃ v : Nat, bigModInverse a (P : Int) = some (v : Int) ∧ v < P ∧
      (a * (v : Int)) % (P : Int) = 1 % (P : Int) := by
  haveI : NeZero P := ⟨by omega⟩
  have hex : ∃ w : Nat, w ∈ List.range P ∧
      decide ((a * (w : Int)) % (P : Int) = 1 % (P : Int)) = true := by
    have hu : IsUnit ((a : ZMod P)) := by
      obtain ⟨s, t, hst⟩ := Int.isCoprime_iff_gcd_eq_one.mpr hcop
      have h1 : ((s * a + t * (P : Int) : Int) : ZMod P) = 1 := by rw [hst]; simp
      push_cast at h1
      simp only [ZMod.natCast_self, mul_zero, add_zero] at h1
      exact isUnit_of_mul_eq_one_right _ _ h1
    obtain ⟨b, hb⟩ := hu.exists_right_inv
    refine ⟨b.val, List.mem_range.mpr (ZMod.val_lt b), ?_⟩
    simp only [decide_eq_true_eq]
    rw [← ZMod.intCast_eq_intCast_iff']
    push_cast
    rw [ZMod.natCast_zmod_val, hb]
  have hsome : ((List.range P).find?
      (fun (z : Nat) => decide ((a * (z : Int)) % (P : Int) = 1 % (P : Int)))).isSome := by
    rw [List.find?_isSome]
    exact hex
  obtain ⟨v, hv⟩ := Option.isSome_iff_exists.mp hsome
  refine ⟨v, ?_, ?_, ?_⟩
  · have hP0 : (P : Int) ≠ 0 := by omega
    simp [bigModInverse, hP0, hv]
  · exact List.mem_range.mp (List.mem_of_find?_eq_some hv)
  · have := List.find?_some hv
    simpa using this

/-! ## bsgs: arithmetic in `ZMod p` -/

theorem ne_zero_of_gcd_eq_one (P : Nat) (hP : 2 ≤ P) (g : Int) (hg : Int.gcd g P = 1) :
    g ≠ 0 := by
  rintro rfl
  simp at hg
  omega

theorem gcd_pow_emod (P : Nat) (g : Int) (hg : Int.gcd g P = 1) (k : Nat) :
    Int.gcd (g ^ k % (P : Int)) P = 1 := by
  rw [← Int.isCoprime_iff_gcd_eq_one] at hg ⊢
  have h1 : IsCoprime (g ^ k) (P : Int) := IsCoprime.pow_left hg
  have h2 : g ^ k % (P : Int) = g ^ k + (P : Int) * (-(g ^ k / (P : Int))) := by
    rw [Int.emod_def]; ring
  rw [h2]
  exact IsCoprime.add_mul_left_left h1 _

theorem isUnit_intCast (P : Nat) (g : Int) (hg : Int.gcd g P = 1) : IsUnit ((g : ZMod P)) := by
  obtain ⟨s, t, hst⟩ := Int.isCoprime_iff_gcd_eq_one.mpr hg
  have h1 : ((s * g + t * (P : Int) : Int) : ZMod P) = 1 := by rw [hst]; simp
  push_cast at h1
  simp only [ZMod.natCast_self, mul_zero, add_zero] at h1
  exact isUnit_of_mul_eq_one_right _ _ h1

/-- The body of `bsgs` for a base coprime to the modulus `P ≥ 2`: the table holds the baby steps
below `M = ⌊√φ(P)⌋ + 1`, `ModInverse` delivers an inverse `v` of `g^M`, and the giant steps run
from `q = y`. -/
theorem bsgs_unfold (P : Nat) (hP : 2 ≤ P) (g y : Int) (hg : Int.gcd g P = 1) :
    ∃ v : Nat, v < P ∧ ((g ^ (Nat.sqrt P.totient + 1) % (P : Int)) * (v : Int)) % (P : Int)
        = 1 % (P : Int) ∧
      bsgs g y P = bsgsGiant (Nat.sqrt P.totient + 1 + 1) P ((Nat.sqrt P.totient + 1 : Nat) : Int)
        (some (v : Int)) (babyTable g P (Nat.sqrt P.totient + 1)) 0 y := by
  have hg0 := ne_zero_of_gcd_eq_one P hP g hg
  have hP0 : (P : Int) ≠ 0 := by omega
  obtain ⟨v, hv1, hv2, hv3⟩ := bigModInverse_spec (g ^ (Nat.sqrt P.totient + 1) % (P : Int)) P
    (by omega) (gcd_pow_emod P g hg _)
  refine ⟨v, hv2, hv3, ?_⟩
  unfold bsgs
  rw [if_neg hg0, phi_eq_totient P (by omega), ok_bind, bigSqrt_natCast, ok_bind]
  have hm : (((Nat.sqrt P.totient : Nat) : Int) + 1) = ((Nat.sqrt P.totient + 1 : Nat) : Int) := by
    push_cast; ring
  dsimp only
  rw [hm]
  have ht : (((Nat.sqrt P.totient + 1 : Nat) : Int)).toNat = Nat.sqrt P.totient + 1 := by omega
  rw [ht]
  have hb := bsgsBaby_eq g P (Nat.sqrt P.totient + 1) (Nat.sqrt P.totient + 1 + 1) 0
    (by omega) (by omega)
  have hb0 : babyTable g (P : Int) 0 = [] := rfl
  rw [hb0, Nat.cast_zero] at hb
  rw [hb, ok_bind, bigExp_mod_nat g _ hP0]
  simp only [deref, ok_bind]
  rw [hv1]

theorem bigExp_eq_some_iff (P : Nat) (hP : 1 ≤ P) (g q : Int) (hq0 : 0 ≤ q) (hqP : q < P)
    (j : Nat) :
    bigExp g (j : Int) (some (P : Int)) = some q ↔ (g : ZMod P) ^ j = (q : ZMod P) := by
  have hP0 : (P : Int) ≠ 0 := by omega
  rw [bigExp_mod_nat g j hP0, Option.some.injEq]
  constructor
  · intro h
    rw [← h, ZMod.intCast_mod]
    push_cast
    rfl
  · intro h
    have h1 : ((g ^ j : Int) : ZMod P) = (q : ZMod P) := by push_cast; exact h
    rw [ZMod.intCast_eq_intCast_iff'] at h1
    rw [h1, Int.emod_eq_of_lt hq0 hqP]

theorem bsgsProbe_cast (P : Nat) (y v : Int) (i : Nat) :
    ((bsgsProbe y v P i : Int) : ZMod P) = (y : ZMod P) * (v : ZMod P) ^ i := by
  induction i with
  | zero => simp [bsgsProbe]
  | succ i ih =>
    simp only [bsgsProbe]
    rw [ZMod.intCast_mod]
    push_cast
    rw [ih]; ring

theorem bsgsProbe_range (P : Nat) (hP : 1 ≤ P) (y v : Int) (hy0 : 0 ≤ y) (hyP : y < P)
    (i : Nat) : 0 ≤ bsgsProbe y v P i ∧ bsgsProbe y v P i < P := by
  cases i with
  | zero => exact ⟨hy0, hyP⟩
  | succ i =>
    simp only [bsgsProbe]
    exact ⟨Int.emod_nonneg _ (by omega), Int.emod_lt_of_pos _ (by omega)⟩

theorem inverse_cast (P : Nat) (g : Int) (M : Nat) (v : Int)
    (hv : ((g ^ M % (P : Int)) * v) % (P : Int) = 1 % (P : Int)) :
    (g : ZMod P) ^ M * (v : ZMod P) = 1 := by
  rw [← ZMod.intCast_eq_intCast_iff'] at hv
  push_cast at hv
  exact hv

theorem pow_eq_pow_iff_of_isUnit {R : Type} [Monoid R] (G : R) (hu : IsUnit G) (a b : Nat) :
    G ^ a = G ^ b ↔ a ≡ b [MOD orderOf G] := by
  obtain ⟨u, rfl⟩ := hu
  rw [orderOf_units, ← pow_eq_pow_iff_modEq]
  constructor
  · intro h
    apply Units.ext
    simpa using h
  · intro h
    have := congrArg Units.val h
    simpa using this

/-- A probe at giant step `i` meets the baby step `j` exactly when `j + M * i` is a logarithm. -/
theorem hit_iff {R : Type} [CommMonoid R] (G V : R) (M : Nat) (hV : G ^ M * V = 1)
    (x i j : Nat) : G ^ j = G ^ x * V ^ i ↔ G ^ (j + M * i) = G ^ x := by
  have h1 : G ^ (M * i) * V ^ i = 1 := by
    rw [pow_mul, ← mul_pow, hV, one_pow]
  constructor
  · intro h
    rw [pow_add, h, mul_assoc, mul_comm (V ^ i), h1, mul_one]
  · intro h
    rw [← h, pow_add, mul_assoc, h1, mul_one]

theorem orderOf_intCast_facts (P : Nat) (hP : 2 ≤ P) (g : Int) (hg : Int.gcd g P = 1) :
    0 < orderOf (g : ZMod P) ∧ orderOf (g : ZMod P) ∣ P.totient := by
  haveI : NeZero P := ⟨by omega⟩
  obtain ⟨u, hu⟩ := isUnit_intCast P g hg
  rw [← hu, orderOf_units]
  refine ⟨orderOf_pos u, ?_⟩
  rw [← ZMod.card_units_eq_totient P]
  exact orderOf_dvd_card

theorem sqrt_succ_le_of_totient (P : Nat) (hP : 2 ≤ P) :
    Nat.sqrt P.totient + 1 ≤ P ∧ P.totient < (Nat.sqrt P.totient + 1) * (Nat.sqrt P.totient + 1)
      ∧ P.totient < P ∧ 0 < P.totient := by
  have h1 : P.totient < P := Nat.totient_lt P (by omega)
  have h2 := Nat.sqrt_le_self P.totient
  have h3 := Nat.lt_succ_sqrt P.totient
  have h4 : 0 < P.totient := Nat.totient_pos.mpr (by omega)
  exact ⟨by omega, h3, h1, h4⟩

/-- The table entry for step `j` equals the probe of giant step `i` exactly when `j + M * i` is a
logarithm of `y`. -/
theorem key_eq_probe_iff (P : Nat) (hP : 2 ≤ P) (g : Int) (hg : Int.gcd g P = 1) (x : Nat)
    (y : Int) (hy0 : 0 ≤ y) (hyP : y < P) (hyx : (y : ZMod P) = (g : ZMod P) ^ x)
    (M : Nat) (v : Int) (hv : ((g ^ M % (P : Int)) * v) % (P : Int) = 1 % (P : Int))
    (i j : Nat) :
    bigExp g (j : Int) (some (P : Int)) = some (bsgsProbe y v P i) ↔
      j + M * i ≡ x [MOD orderOf (g : ZMod P)] := by
  obtain ⟨h0, h1⟩ := bsgsProbe_range P (by omega) y v hy0 hyP i
  rw [bigExp_eq_some_iff P (by omega) g _ h0 h1, bsgsProbe_cast, hyx,
    hit_iff _ _ M (inverse_cast P g M v hv),
    pow_eq_pow_iff_of_isUnit _ (isUnit_intCast P g hg)]

/-- Behaviour of `bsgs` on a power of a base coprime to the modulus: it returns a logarithm
`r < p` of `y`; the least one when the order `d` of `g` is at least `M = ⌊√φ(p)⌋ + 1`, and the
largest one below `M` when `d < M`. -/
theorem bsgs_power (P : Nat) (hP : 2 ≤ P) (g : Int) (hg : Int.gcd g P = 1) (x : Nat) (y : Int)
    (hy0 : 0 ≤ y) (hyP : y < P) (hyx : (y : ZMod P) = (g : ZMod P) ^ x) :
    ∃ r : Nat, bsgs g y P = .ok (some (r : Int), none) ∧ r < P ∧
      r ≡ x [MOD orderOf (g : ZMod P)] ∧
      (Nat.sqrt P.totient + 1 ≤ orderOf (g : ZMod P) → r = x % orderOf (g : ZMod P)) ∧
      (orderOf (g : ZMod P) < Nat.sqrt P.totient + 1 →
        r < Nat.sqrt P.totient + 1 ∧
        ∀ j, r < j → j < Nat.sqrt P.totient + 1 → ¬ j ≡ x [MOD orderOf (g : ZMod P)]) := by
  obtain ⟨v, hvP, hv, hb⟩ := bsgs_unfold P hP g y hg
  obtain ⟨hdpos, hddvd⟩ := orderOf_intCast_facts P hP g hg
  obtain ⟨hMP, hsq, htP, htpos⟩ := sqrt_succ_le_of_totient P hP
  have hdle : orderOf (g : ZMod P) ≤ P.totient := Nat.le_of_dvd htpos hddvd
  have hP0 : (P : Int) ≠ 0 := by omega
  have key := key_eq_probe_iff P hP g hg x y hy0 hyP hyx (Nat.sqrt P.totient + 1) v hv
  generalize hM : Nat.sqrt P.totient + 1 = M at *
  generalize hd : orderOf (g : ZMod P) = d at *
  have hMpos : 0 < M := by omega
  rw [hb]
  by_cases hcase : M ≤ d
  · -- the table has no repeated key
    have hx0 : x % d < d := Nat.mod_lt _ hdpos
    have hi0 : x % d / M < M := by
      rw [Nat.div_lt_iff_lt_mul hMpos]; omega
    have hsplit : x % d % M + M * (x % d / M) = x % d := Nat.mod_add_div _ _
    have hj0 : x % d % M < M := Nat.mod_lt _ hMpos
    have hmiss : ∀ i : Nat, i < x % d / M →
        (babyTable g P M).lookup (some (bsgsProbe y v P i)) = none := by
      intro i hi
      rcases lookup_babyTable g P (bsgsProbe y v P i) M with ⟨h, _⟩ | ⟨j1, hj1, _, h3, _⟩
      · exact h
      · exfalso
        have hmod := (key i j1).mp h3
        have h1 : M * (i + 1) ≤ M * (x % d / M) := Nat.mul_le_mul_left M (by omega)
        have h2 : M * (i + 1) = M * i + M := by ring
        unfold Nat.ModEq at hmod
        rw [Nat.mod_eq_of_lt (by omega)] at hmod
        omega
    have hhit : (babyTable g P M).lookup (some (bsgsProbe y v P (x % d / M)))
        = some ((x % d % M : Nat) : Int) := by
      have hmatch : x % d % M + M * (x % d / M) ≡ x [MOD d] := by
        rw [hsplit]; exact Nat.mod_modEq x d
      rcases lookup_babyTable g P (bsgsProbe y v P (x % d / M)) M with
        ⟨_, h⟩ | ⟨j1, hj1, h2, h3, _⟩
      · exact absurd ((key _ _).mpr hmatch) (h _ hj0)
      · have hmod := (key _ j1).mp h3
        have h5 : j1 ≡ x % d % M [MOD d] :=
          Nat.ModEq.add_right_cancel' _ (hmod.trans hmatch.symm)
        unfold Nat.ModEq at h5
        rw [Nat.mod_eq_of_lt (by omega), Nat.mod_eq_of_lt (by omega)] at h5
        rw [h2, h5]
    have hres := bsgsGiant_hit P hP0 M y v (babyTable g P M) (x % d / M) _ hi0 hmiss hhit
      (M + 1) 0 (Nat.zero_le _) (by omega)
    simp only [Nat.cast_zero, bsgsProbe] at hres
    have hval : ((M : Int) * ((x % d / M : Nat) : Int) + ((x % d % M : Nat) : Int)) % (P : Int)
        = ((x % d : Nat) : Int) := by
      have : (M : Int) * ((x % d / M : Nat) : Int) + ((x % d % M : Nat) : Int)
          = ((x % d : Nat) : Int) := by
        have := congrArg (fun t : Nat => (t : Int)) hsplit
        push_cast at this ⊢
        linarith
      rw [this]
      exact Int.emod_eq_of_lt (by omega) (by omega)
    rw [hval] at hres
    exact ⟨x % d, hres, by omega, Nat.mod_modEq x d, fun _ => rfl, fun h => by omega⟩
  · -- every power of `g` is in the table: the first probe hits
    have hdM : d < M := by omega
    rcases lookup_babyTable g P y M with ⟨_, h⟩ | ⟨j1, hj1, h2, h3, h4⟩
    · exfalso
      have hmatch : x % d + M * 0 ≡ x [MOD d] := by
        simpa using Nat.mod_modEq x d
      have := (key 0 (x % d)).mpr hmatch
      exact h (x % d) (by have := Nat.mod_lt x hdpos; omega) this
    · have hres := bsgsGiant_hit P hP0 M y v (babyTable g P M) 0 (j1 : Int) hMpos
        (fun i hi => by omega) h2 (M + 1) 0 (by omega) (by omega)
      simp only [Nat.cast_zero, bsgsProbe, mul_zero, zero_add] at hres
      rw [Int.emod_eq_of_lt (by omega) (by omega)] at hres
      have hmod : j1 ≡ x [MOD d] := by
        have := (key 0 j1).mp h3
        simpa using this
      refine ⟨j1, hres, by omega, hmod, fun h => by omega, fun _ => ⟨hj1, ?_⟩⟩
      intro j hj hjM hjx
      have hjx' : j + M * 0 ≡ x [MOD d] := by simpa using hjx
      exact h4 j hj hjM ((key 0 j).mpr hjx')

theorem gcd_eq_one_of_isUnit (P : Nat) (g : Int) (hu : IsUnit ((g : ZMod P))) :
    Int.gcd g P = 1 := by
  obtain ⟨b, hb⟩ := hu.exists_right_inv
  rw [← Int.isCoprime_iff_gcd_eq_one]
  have h1 : ((g * (ZMod.cast b : Int) - 1 : Int) : ZMod P) = 0 := by
    push_cast
    rw [hb]
    simp
  rw [ZMod.intCast_zmod_eq_zero_iff_dvd] at h1
  obtain ⟨c, hc⟩ := h1
  exact ⟨(ZMod.cast b : Int), -c, by linarith⟩

theorem gcd_eq_one_of_orderOf_pos (P : Nat) (g : Int) (h : 0 < orderOf (g : ZMod P)) :
    Int.gcd g P = 1 := by
  apply gcd_eq_one_of_isUnit
  exact isUnit_ofPowEqOne (pow_orderOf_eq_one _) h.ne'

theorem intCast_pow_emod (P : Nat) (g : Int) (x : Nat) :
    ((g ^ x % (P : Int) : Int) : ZMod P) = (g : ZMod P) ^ x := by
  rw [ZMod.intCast_mod]; push_cast; rfl

theorem bsgs_least (P : Nat) (hP : 2 ≤ P) (g : Int) (hcop : Int.gcd g P = 1) (x : Nat)
    (hord : Nat.sqrt P.totient + 1 ≤ orderOf (g : ZMod P)) :
    bsgs g (g ^ x % (P : Int)) P
      = .ok (some ((x % orderOf (g : ZMod P) : Nat) : Int), none) := by
  obtain ⟨r, h1, _, _, h4, _⟩ := bsgs_power P hP g hcop x (g ^ x % (P : Int))
    (Int.emod_nonneg _ (by omega)) (Int.emod_lt_of_pos _ (by omega)) (intCast_pow_emod P g x)
  rw [h1, h4 hord]

/-- C4: for a modulus `p ≥ 2` and a base `g` coprime to `p` (in particular every such `g ≥ 1`)
whose multiplicative order `d` modulo `p` is at least `⌊√φ(p)⌋ + 1`, `bsgs(g, g^x mod p, p)`
returns, without error, `x mod d`, and that is the least exponent `k ≥ 0` with
`g^k ≡ g^x (mod p)`. In particular, for `p ≥ 3`, `g` of order `φ(p)` and `x < φ(p)` the
result is `x` itself. -/
theorem bsgs_exact_round_trip :
    (∀ (P : Nat) (g : Int) (x : Nat), 2 ≤ P → Int.gcd g P = 1 →
      Nat.sqrt P.totient + 1 ≤ orderOf (g : ZMod P) →
      bsgs g (g ^ x % (P : Int)) P
          = .ok (some ((x % orderOf (g : ZMod P) : Nat) : Int), none) ∧
        ∀ k : Nat, g ^ k % (P : Int) = g ^ x % (P : Int) → x % orderOf (g : ZMod P) ≤ k) ∧
    (∀ (P : Nat) (g : Int) (x : Nat), 3 ≤ P → orderOf (g : ZMod P) = P.totient →
      x < P.totient → bsgs g (g ^ x % (P : Int)) P = .ok (some (x : Int), none)) := by
  constructor
  · intro P g x hP hcop hord
    refine ⟨bsgs_least P hP g hcop x hord, ?_⟩
    intro k hk
    have hpow : (g : ZMod P) ^ k = (g : ZMod P) ^ x := by
      rw [← intCast_pow_emod, ← intCast_pow_emod, hk]
    have hmod := (pow_eq_pow_iff_of_isUnit _ (isUnit_intCast P g hcop) k x).mp hpow
    unfold Nat.ModEq at hmod
    rw [← hmod]
    exact Nat.mod_le _ _
  · intro P g x hP hord hx
    have htpos : 0 < P.totient := Nat.totient_pos.mpr (by omega)
    have hteven : Even P.totient := Nat.totient_even (by omega)
    have ht2 : 2 ≤ P.totient := by
      obtain ⟨c, hc⟩ := hteven
      omega
    have hcop : Int.gcd g P = 1 := gcd_eq_one_of_orderOf_pos P g (by omega)
    have hsq : Nat.sqrt P.totient < P.totient := Nat.sqrt_lt_self (by omega)
    have := bsgs_least P (by omega) g hcop x (by omega)
    rw [this, hord, Nat.mod_eq_of_lt hx]

/-! ## basicPohligHellman -/

theorem bigExp_nil_nat (q : Int) (J : Nat) : bigExp q (J : Int) none = some (q ^ J) := by
  unfold bigExp
  by_cases h : (J : Int) ≤ 0
  · have : J = 0 := by omega
    subst this
    simp
  · simp [h]

theorem bigExp_nil_pred (q : Int) (J : Nat) :
    bigExp q ((J : Int) - 1) none = some (q ^ (J - 1)) := by
  cases J with
  | zero => simp [bigExp]
  | succ k =>
    have : ((k + 1 : Nat) : Int) - 1 = (k : Int) := by push_cast; ring
    rw [this, bigExp_nil_nat]
    simp

theorem orderOf_eq_prime_of (R : Type) [Monoid R] (A : R) (q : Nat) (hq : q.Prime)
    (h1 : A ^ q = 1) (h2 : A ≠ 1) : orderOf A = q := by
  haveI := Fact.mk hq
  exact orderOf_eq_prime h1 h2

theorem div_prime_eq (n q J : Nat) (hq : 0 < q) (hd : q ^ (J + 1) ∣ n) :
    q ^ J * (n / q ^ (J + 1)) = n / q := by
  obtain ⟨c, rfl⟩ := hd
  rw [Nat.mul_div_cancel_left _ (pow_pos hq _)]
  have : q ^ (J + 1) * c = q * (q ^ J * c) := by ring
  rw [this, Nat.mul_div_cancel_left _ hq]

/-- The value `beta` handed to `bsgs` at digit `J` is the power `x / q^J` of `a1 = g^(n/q)`. -/
theorem beta_eq {R : Type} [CommMonoid R] (G V : R) (n q J x : Nat) (hq : 0 < q)
    (hd : q ^ (J + 1) ∣ n) (hV : G ^ (x % q ^ J) * V = 1) :
    (V * G ^ x) ^ (n / q ^ (J + 1)) = (G ^ (n / q)) ^ (x / q ^ J) := by
  have hx : G ^ x = G ^ (x % q ^ J) * G ^ (q ^ J * (x / q ^ J)) := by
    rw [← pow_add, Nat.mod_add_div]
  have h1 : V * G ^ x = G ^ (q ^ J * (x / q ^ J)) := by
    rw [hx, ← mul_assoc, mul_comm V, hV, one_mul]
  rw [h1, ← pow_mul, ← pow_mul]
  congr 1
  rw [← div_prime_eq n q J hq hd]
  ring

/-- The loop of `basicPohligHellman` from digit `J` on, when `a1 = g^(n/q)` has order `q`: the
digits recovered are those of `x` in base `q`, and the result is `x mod q^E`. -/
theorem basicLoop_spec (P : Nat) (hP : 2 ≤ P) (g : Int) (hg : Int.gcd g P = 1) (n : Nat)
    (hn : 0 < n) (hGn : (g : ZMod P) ^ n = 1) (q : Nat) (hq : q.Prime) (E : Nat)
    (hqE : q ^ E ∣ n) (hA1 : (g : ZMod P) ^ (n / q) ≠ 1) (x : Nat) (y : Int)
    (hyx : (y : ZMod P) = (g : ZMod P) ^ x) :
    ∀ fuel J : Nat, J ≤ E → E < fuel + J → ∀ (gamma : Int) (L : Nat),
      (gamma : ZMod P) * (g : ZMod P) ^ (L * q ^ (J - 1)) = (g : ZMod P) ^ (x % q ^ J) →
      basicLoop fuel g y n P q E (some (g ^ (n / q) % (P : Int))) J gamma L ((x % q ^ J : Nat) : Int)
        = .ok ((x % q ^ E : Nat) : Int) := by
  have hP0 : (P : Int) ≠ 0 := by omega
  have hq0 : 0 < q := hq.pos
  have hqI : (q : Int) ≠ 0 := by omega
  have hnI : (n : Int) ≠ 0 := by omega
  have hGu : IsUnit ((g : ZMod P)) := isUnit_intCast P g hg
  intro fuel
  induction fuel with
  | zero => intro J h1 h2; omega
  | succ fuel ih =>
    intro J hJE hfuel gamma L hinv
    unfold basicLoop
    by_cases hlt : (J : Int) < (E : Int)
    · have hJ : J < E := by exact_mod_cast hlt
      have hdvd : q ^ (J + 1) ∣ n := (pow_dvd_pow q (by omega)).trans hqE
      rw [if_pos hlt, bigExp_nil_pred]
      simp only [deref, ok_bind]
      -- the factor `a` and the new `gamma`
      have hap : (L : Int) * (q : Int) ^ (J - 1) = ((L * q ^ (J - 1) : Nat) : Int) := by
        push_cast; ring
      rw [hap, bigExp_mod_nat g _ hP0]
      simp only [ok_bind, bigMod_ok _ hP0]
      have hgam : (((gamma * (g ^ (L * q ^ (J - 1)) % (P : Int))) % (P : Int) : Int) : ZMod P)
          = (g : ZMod P) ^ (x % q ^ J) := by
        rw [ZMod.intCast_mod]
        push_cast
        exact hinv
      generalize hgdef : (gamma * (g ^ (L * q ^ (J - 1)) % (P : Int))) % (P : Int) = gam1 at hgam ⊢
      -- the exponent `betaPower`
      have hjs : ((J : Int) + 1) = ((J + 1 : Nat) : Int) := by push_cast; ring
      rw [hjs, bigExp_nil_nat]
      simp only [ok_bind, bigDiv_ok _ (pow_ne_zero _ hqI)]
      have hbp : (n : Int) / (q : Int) ^ (J + 1) = ((n / q ^ (J + 1) : Nat) : Int) := by
        push_cast; rfl
      rw [hbp]
      -- the inverse of `gamma`
      have hgcd : Int.gcd gam1 P = 1 :=
        gcd_eq_one_of_isUnit P gam1 (by rw [hgam]; exact hGu.pow _)
      obtain ⟨v, hv1, hv2, hv3⟩ := bigModInverse_spec gam1 P (by omega) hgcd
      rw [hv1]
      simp only [ok_bind]
      have hV : (g : ZMod P) ^ (x % q ^ J) * (v : ZMod P) = 1 := by
        rw [← hgam]
        rw [← ZMod.intCast_eq_intCast_iff'] at hv3
        push_cast at hv3
        exact hv3
      -- `beta`
      rw [bigExp_mod_nat _ _ hP0, Option.getD_some]
      have hbeta : (((((v : Int) * y) ^ (n / q ^ (J + 1)) % (P : Int)) : Int) : ZMod P)
          = ((g ^ (n / q) % (P : Int) : Int) : ZMod P) ^ (x / q ^ J) := by
        rw [intCast_pow_emod, intCast_pow_emod]
        push_cast
        rw [hyx]
        exact beta_eq _ _ n q J x hq0 hdvd hV
      -- the call of `bsgs`
      have hga1 : Int.gcd (g ^ (n / q) % (P : Int)) P = 1 := gcd_pow_emod P g hg _
      obtain ⟨r, hr1, _, hr3, _, _⟩ := bsgs_power P hP (g ^ (n / q) % (P : Int)) hga1 (x / q ^ J)
        (((v : Int) * y) ^ (n / q ^ (J + 1)) % (P : Int))
        (Int.emod_nonneg _ hP0) (Int.emod_lt_of_pos _ (by omega)) hbeta
      rw [hr1]
      simp only [ok_bind, bigMod_ok _ hqI]
      have hord : orderOf ((g ^ (n / q) % (P : Int) : Int) : ZMod P) = q := by
        rw [intCast_pow_emod]
        apply orderOf_eq_prime_of _ _ q hq _ hA1
        rw [← pow_mul, Nat.div_mul_cancel ((dvd_pow_self q (by omega)).trans hdvd), hGn]
      rw [hord] at hr3
      have hdigit : (r : Int) % (q : Int) = ((x / q ^ J % q : Nat) : Int) := by
        have : r % q = x / q ^ J % q := hr3
        rw [← this]; push_cast; rfl
      rw [hdigit]
      rw [bigExp_nil_nat]
      simp only [ok_bind]
      have hacc : ((x % q ^ J : Nat) : Int) + (q : Int) ^ J * ((x / q ^ J % q : Nat) : Int)
          = ((x % q ^ (J + 1) : Nat) : Int) := by
        rw [Nat.mod_pow_succ]
        push_cast; ring
      rw [hacc]
      apply ih (J + 1) (by omega) (by omega)
      rw [hgam, Nat.add_sub_cancel, ← pow_add, Nat.mod_pow_succ]
      congr 1
      ring
    · have hJ : J = E := by
        have : ¬ J < E := by exact_mod_cast hlt
        omega
      subst hJ
      rw [if_neg hlt, bigMod_ok _ hnI]
      congr 1
      have h1 : x % q ^ J < q ^ J := Nat.mod_lt _ (pow_pos hq0 _)
      have h2 : q ^ J ≤ n := Nat.le_of_dvd hn hqE
      rw [← Int.natCast_mod, Nat.mod_eq_of_lt (by omega)]

/-- The function `basicPohligHellman` when `g^n = 1` and `a1 = g^(n/q)` is not `1` modulo `P`. -/
theorem basicPohligHellman_eq (P : Nat) (hP : 2 ≤ P) (g : Int) (hg : Int.gcd g P = 1) (n : Nat)
    (hn : 0 < n) (hGn : (g : ZMod P) ^ n = 1) (q : Nat) (hq : q.Prime) (E : Nat)
    (hqE : q ^ E ∣ n) (hA1 : (g : ZMod P) ^ (n / q) ≠ 1) (x : Nat) (y : Int)
    (hyx : (y : ZMod P) = (g : ZMod P) ^ x) :
    basicPohligHellman g y n P q E = .ok ((x % q ^ E : Nat) : Int) := by
  have hP0 : (P : Int) ≠ 0 := by omega
  have hqI : (q : Int) ≠ 0 := by have := hq.pos; omega
  unfold basicPohligHellman
  simp only [bigDiv_ok _ hqI, ok_bind]
  have hnq : (n : Int) / (q : Int) = ((n / q : Nat) : Int) := by push_cast; rfl
  rw [hnq, bigExp_mod_nat g _ hP0, Int.toNat_ofNat]
  have h := basicLoop_spec P hP g hg n hn hGn q hq E hqE hA1 x y hyx (E + 1) 0 (by omega)
    (by omega) 1 0 (by simp [Nat.mod_one])
  simpa [Nat.mod_one] using h

/-! ## pohligHellman -/

theorem pow_div_ne_one_of_orderOf {R : Type} [Monoid R] (G : R) (n q : Nat) (hn : 0 < n)
    (hord : orderOf G = n) (hq : 2 ≤ q) (hqn : q ∣ n) : G ^ (n / q) ≠ 1 := by
  intro h
  have h1 : n ∣ n / q := by
    have := orderOf_dvd_of_pow_eq_one h
    rwa [hord] at this
  have h2 : 0 < n / q := Nat.div_pos (Nat.le_of_dvd hn hqn) (by omega)
  have h3 : n / q < n := Nat.div_lt_self hn (by omega)
  have := Nat.le_of_dvd h2 h1
  omega

/-- The entry `f` of a factorization of `n`, read as natural numbers. -/
theorem factor_nat (fs : List factor) (n : Nat) (hfs : IsPrimeFactorization fs n) (f : factor)
    (hf : f ∈ fs) :
    ∃ q e : Nat, f.fact = (q : Int) ∧ f.exp = (e : Int) ∧ q.Prime ∧ 1 ≤ e ∧ q ^ e ∣ n ∧
      f.fact ^ f.exp.toNat = ((q ^ e : Nat) : Int) := by
  obtain ⟨h0, hp, he⟩ := hfs.1 f hf
  refine ⟨f.fact.toNat, f.exp.toNat, by omega, by omega, hp, by omega, ?_, ?_⟩
  · have hmem : f.fact ^ f.exp.toNat ∈ fs.map (fun f => f.fact ^ f.exp.toNat) :=
      List.mem_map.mpr ⟨f, hf, rfl⟩
    have hd := List.dvd_prod hmem
    rw [hfs.2.2] at hd
    have hc : f.fact ^ f.exp.toNat = ((f.fact.toNat ^ f.exp.toNat : Nat) : Int) := by
      push_cast; rw [Int.toNat_of_nonneg h0]
    rw [hc] at hd
    exact_mod_cast hd
  · push_cast; rw [Int.toNat_of_nonneg h0]

theorem phCollect_eq (P : Nat) (hP : 2 ≤ P) (g : Int) (hg : Int.gcd g P = 1) (n : Nat)
    (hn : 0 < n) (hord : orderOf (g : ZMod P) = n) (x : Nat) (y : Int)
    (hyx : (y : ZMod P) = (g : ZMod P) ^ x) :
    ∀ (fs : List factor) (A N : List Int),
      (∀ f ∈ fs, ∃ q e : Nat, f.fact = (q : Int) ∧ f.exp = (e : Int) ∧ q.Prime ∧ 1 ≤ e ∧
        q ^ e ∣ n ∧ f.fact ^ f.exp.toNat = ((q ^ e : Nat) : Int)) →
      phCollect g y n P fs A N =
        .ok (A ++ fs.map (fun f => (x : Int) % f.fact ^ f.exp.toNat),
          N ++ fs.map (fun f => f.fact ^ f.exp.toNat)) := by
  have hGn : (g : ZMod P) ^ n = 1 := by rw [← hord]; exact pow_orderOf_eq_one _
  intro fs
  induction fs with
  | nil => intro A N _; simp [phCollect, pure_eq_ok]
  | cons f fs ih =>
    intro A N hall
    obtain ⟨q, e, hq, he, hqp, he1, hdvd, hpow⟩ := hall f (by simp)
    unfold phCollect
    have hA1 : (g : ZMod P) ^ (n / q) ≠ 1 :=
      pow_div_ne_one_of_orderOf _ n q hn hord hqp.two_le ((dvd_pow_self q (by omega)).trans hdvd)
    simp only [hq, he]
    rw [basicPohligHellman_eq P hP g hg n hn hGn q hqp e hdvd hA1 x y hyx, ok_bind,
      bigExp_nil_nat]
    simp only [deref, ok_bind]
    rw [ih _ _ (fun f' hf' => hall f' (by simp [hf']))]
    simp only [List.map_cons, hq, he, Int.toNat_ofNat, List.append_assoc, List.singleton_append]
    congr 3
    push_cast
    rfl

theorem gcd_prime_pow_eq_one (q1 q2 e1 e2 : Nat) (h1 : q1.Prime) (h2 : q2.Prime)
    (hne : q1 ≠ q2) : Int.gcd ((q1 ^ e1 : Nat) : Int) ((q2 ^ e2 : Nat) : Int) = 1 := by
  rw [Int.gcd_natCast_natCast]
  exact Nat.Coprime.pow _ _ ((Nat.coprime_primes h1 h2).mpr hne)

theorem getElem_pairwise_of_symm {α : Type} (R : α → α → Prop) (hsymm : ∀ a b, R a b → R b a)
    (l : List α) (h : l.Pairwise R) :
    ∀ i j, ∀ hi : i < l.length, ∀ hj : j < l.length, i ≠ j → R l[i] l[j] := by
  intro i j hi hj hij
  rw [List.pairwise_iff_getElem] at h
  rcases Nat.lt_or_gt_of_ne hij with hlt | hgt
  · exact h i j hi hj hlt
  · exact hsymm _ _ (h j i hj hi hgt)

/-- The moduli handed to `crt` by `pohligHellman` are pairwise coprime. -/
theorem factor_moduli_pairwise (fs : List factor) (n : Nat) (hfs : IsPrimeFactorization fs n) :
    (fs.map (fun f => f.fact ^ f.exp.toNat)).Pairwise (fun a b => Int.gcd a b = 1) := by
  rw [List.pairwise_map]
  refine List.Pairwise.imp_of_mem ?_ hfs.2.1
  intro a b ha hb hab
  obtain ⟨q1, e1, hq1, _, hp1, _, _, hpow1⟩ := factor_nat fs n hfs a ha
  obtain ⟨q2, e2, hq2, _, hp2, _, _, hpow2⟩ := factor_nat fs n hfs b hb
  rw [hpow1, hpow2]
  apply gcd_prime_pow_eq_one _ _ _ _ hp1 hp2
  intro h
  apply hab
  rw [hq1, hq2, h]

/-- The function `pohligHellman` for a base of order `φ(P)` and a complete factorization: the
result is the logarithm reduced modulo `φ(P)`. -/
theorem pohligHellman_eq (fz : Int → List factor) (P : Nat) (hP : 3 ≤ P) (g : Int)
    (hord : orderOf (g : ZMod P) = P.totient)
    (hfz : IsPrimeFactorization (fz (P.totient : Int)) P.totient) (x : Nat) (y : Int)
    (hyx : (y : ZMod P) = (g : ZMod P) ^ x) :
    pohligHellman fz g y P = .ok (some ((x % P.totient : Nat) : Int)) := by
  have htpos : 0 < P.totient := Nat.totient_pos.mpr (by omega)
  have ht2 : 2 ≤ P.totient := by
    obtain ⟨c, hc⟩ := Nat.totient_even (show 2 < P by omega)
    omega
  have hg : Int.gcd g P = 1 := gcd_eq_one_of_orderOf_pos P g (by omega)
  have hfac := factor_nat (fz (P.totient : Int)) P.totient hfz
  unfold pohligHellman
  rw [phi_eq_totient P (by omega), ok_bind]
  dsimp only
  rw [phCollect_eq P (by omega) g hg P.totient htpos hord x y hyx _ [] [] hfac, ok_bind]
  simp only [List.nil_append]
  generalize hfs : fz (P.totient : Int) = fs at *
  -- the call of `crt`
  have hprod : (fs.map (fun f => f.fact ^ f.exp.toNat)).prod = (P.totient : Int) := hfz.2.2
  have hne : fs.map (fun f => f.fact ^ f.exp.toNat) ≠ [] := by
    intro h
    rw [h] at hprod
    simp at hprod
    omega
  have hpos : ∀ m ∈ fs.map (fun f => f.fact ^ f.exp.toNat), 0 < m := by
    intro m hm
    obtain ⟨f, hf, rfl⟩ := List.mem_map.mp hm
    obtain ⟨q, e, _, _, hp, _, _, hpow⟩ := hfac f hf
    rw [hpow]
    exact_mod_cast pow_pos hp.pos e
  have hpw := factor_moduli_pairwise fs P.totient hfz
  have hcop := getElem_pairwise_of_symm (fun a b : Int => Int.gcd a b = 1)
    (fun a b h => by show Int.gcd b a = 1; rw [Int.gcd_comm]; exact h) _ hpw
  obtain ⟨x1, hcrt, hx0, hxlt, hmod⟩ := crtWith_solution Int.gcdB
    (fun u v => ⟨Int.gcdA u v, (Int.gcd_eq_gcd_ab u v).symm⟩)
    (fs.map (fun f => (x : Int) % f.fact ^ f.exp.toNat))
    (fs.map (fun f => f.fact ^ f.exp.toNat)) hne (by simp) hpos hcop
  unfold crt
  rw [hcrt, ok_bind]
  simp only [pure_eq_ok]
  -- uniqueness of the solution
  have hlt : ((x % P.totient : Nat) : Int) < (P.totient : Int) := by
    exact_mod_cast Nat.mod_lt x htpos
  have hxeq : x1 = ((x % P.totient : Nat) : Int) := by
    apply crt_solution_unique _ hcop x1 _ hx0 hxlt (by omega) (by rw [hprod]; exact hlt)
    intro i hi
    have hi1 : i < fs.length := by simpa using hi
    have hmn : (fs.map (fun f => f.fact ^ f.exp.toNat))[i] ∣ (P.totient : Int) := by
      rw [← hprod]; exact List.dvd_prod (List.getElem_mem hi)
    have h1 := (hmod i hi (by simpa using hi1)).1
    simp only [List.getElem_map] at h1 hmn ⊢
    rw [Int.emod_emod_of_dvd _ (dvd_refl _)] at h1
    have h2 : ((x % P.totient : Nat) : Int) % (fs[i].fact ^ fs[i].exp.toNat)
        = (x : Int) % (fs[i].fact ^ fs[i].exp.toNat) := by
      push_cast
      exact Int.emod_emod_of_dvd _ hmn
    exact h1.trans h2.symm
  rw [hxeq]

/-! ## The round trips -/

theorem orderOf_two_zmod_five : orderOf (((2 : Int) : ZMod 5)) = 4 := by
  rw [orderOf_eq_iff (by norm_num)]
  refine ⟨by decide, ?_⟩
  intro m hm hpos
  interval_cases m <;> decide

theorem totient_five : Nat.totient 5 = 4 := by
  rw [Nat.totient_prime (by norm_num)]

theorem isPrimeFactorization_four : IsPrimeFactorization [⟨2, 2⟩] 4 := by
  refine ⟨?_, by simp, by simp⟩
  intro f hf
  simp only [List.mem_singleton] at hf
  subst hf
  exact ⟨by decide, Nat.prime_two, by decide⟩

set_option maxRecDepth 100000 in
theorem basicPohligHellman_test_vector : basicPohligHellman 71 210 250 251 5 3 = .ok 72 := by
  decide

/-- C6: for a modulus `p ≥ 2`, a base `g` coprime to `p` of multiplicative order exactly `n`,
a prime `pf` and an exponent `ef ≥ 1` with `pf^ef ∣ n`, and every `x ≥ 0`,
`basicPohligHellman(g, g^x mod p, n, p, pf, ef)` returns `x mod pf^ef` (the first digit, for
which no digit has been recovered, included); and on the test vector
`g = 71, y = 210, n = 250, p = 251, pf = 5, ef = 3` the result is `72`. -/
theorem basicPohligHellman_prime_power :
    (∀ (P : Nat) (g : Int) (n pf ef x : Nat), 2 ≤ P → Int.gcd g P = 1 →
      orderOf (g : ZMod P) = n → pf.Prime → 1 ≤ ef → pf ^ ef ∣ n →
      basicPohligHellman g (g ^ x % (P : Int)) n P pf ef = .ok ((x % pf ^ ef : Nat) : Int)) ∧
    basicPohligHellman 71 210 250 251 5 3 = .ok 72 := by
  constructor
  · intro P g n pf ef x hP hg hord hpf hef hdvd
    have hn : 0 < n := by
      rw [← hord]; exact (orderOf_intCast_facts P hP g hg).1
    have hGn : (g : ZMod P) ^ n = 1 := by rw [← hord]; exact pow_orderOf_eq_one _
    have hA1 : (g : ZMod P) ^ (n / pf) ≠ 1 :=
      pow_div_ne_one_of_orderOf _ n pf hn hord hpf.two_le
        ((dvd_pow_self pf (by omega)).trans hdvd)
    exact basicPohligHellman_eq P hP g hg n hn hGn pf hpf ef hdvd hA1 x _
      (intCast_pow_emod P g x)
  · exact basicPohligHellman_test_vector

theorem basicPohligHellman_prime_power_witness :
    basicPohligHellman 2 ((2 : Int) ^ 3 % ((5 : Nat) : Int)) ((4 : Nat) : Int) ((5 : Nat) : Int)
      ((2 : Nat) : Int) ((2 : Nat) : Int) = .ok ((3 % 2 ^ 2 : Nat) : Int) :=
  basicPohligHellman_prime_power.1 5 2 4 2 2 3 (by norm_num) (by decide) orderOf_two_zmod_five
    Nat.prime_two (by norm_num) (by norm_num)

/-- C5: for a modulus `p ≥ 3`, a base `g` whose multiplicative order modulo `p` is `φ(p)`, a
factorization routine that returns the complete prime factorization of `φ(p)`, and every `x`
with `0 ≤ x < φ(p)`: `pohligHellman(g, g^x mod p, p) = x`. -/
theorem pohligHellman_round_trip (factorize : Int → List factor) (P : Nat) (g : Int) (x : Nat)
    (hP : 3 ≤ P) (hord : orderOf (g : ZMod P) = P.totient)
    (hfz : IsPrimeFactorization (factorize (P.totient : Int)) P.totient)
    (hx : x < P.totient) :
    pohligHellman factorize g (g ^ x % (P : Int)) P = .ok (some (x : Int)) := by
  rw [pohligHellman_eq factorize P hP g hord hfz x _ (intCast_pow_emod P g x),
    Nat.mod_eq_of_lt hx]

theorem pohligHellman_round_trip_witness :
    pohligHellman (fun _ => [⟨2, 2⟩]) 2 ((2 : Int) ^ 3 % ((5 : Nat) : Int)) ((5 : Nat) : Int)
      = .ok (some ((3 : Nat) : Int)) :=
  pohligHellman_round_trip (fun _ => [⟨2, 2⟩]) 5 2 3 (by norm_num)
    (by rw [orderOf_two_zmod_five, totient_five])
    (by rw [totient_five]; exact isPrimeFactorization_four)
    (by rw [totient_five]; norm_num)

theorem bsgs_exact_round_trip_witness :
    bsgs 2 ((2 : Int) ^ 3 % ((5 : Nat) : Int)) ((5 : Nat) : Int)
        = .ok (some ((3 % orderOf (((2 : Int) : ZMod 5)) : Nat) : Int), none) ∧
      ∀ k : Nat, (2 : Int) ^ k % ((5 : Nat) : Int) = (2 : Int) ^ 3 % ((5 : Nat) : Int) →
        3 % orderOf (((2 : Int) : ZMod 5)) ≤ k :=
  bsgs_exact_round_trip.1 5 2 3 (by norm_num) (by decide)
    (by
      rw [orderOf_two_zmod_five, totient_five]
      have : Nat.sqrt 4 = 2 := (Nat.eq_sqrt.mpr ⟨by norm_num, by norm_num⟩).symm
      rw [this]
      norm_num)


/-! ## pohligHellman on a base that is not a generator -/

theorem pow_mul_eq_one_of_inverse {R : Type} [CommMonoid R] (G V : R) (m k x c : Nat)
    (hGm : G ^ m = 1) (hV : G ^ k * V = 1) : (V * G ^ x) ^ (m * c) = 1 := by
  have hVm : V ^ m = 1 := by
    have h := congrArg (fun t => t ^ m) hV
    simp only [mul_pow, one_pow] at h
    rwa [← pow_mul, mul_comm k m, pow_mul, hGm, one_pow, one_mul] at h
  rw [pow_mul, mul_pow, hVm, ← pow_mul, mul_comm x m, pow_mul, hGm, one_pow, one_mul, one_pow]

theorem div_pow_succ_eq (n q E J : Nat) (hq : 0 < q) (hqE : q ^ E ∣ n) (hJ : J + 1 ≤ E) :
    n / q ^ (J + 1) = n / q ^ E * q ^ (E - (J + 1)) := by
  obtain ⟨c, rfl⟩ := hqE
  rw [Nat.mul_div_cancel_left _ (pow_pos hq _)]
  have h : q ^ E = q ^ (J + 1) * q ^ (E - (J + 1)) := by
    rw [← pow_add]; congr 1; omega
  rw [h, mul_assoc, Nat.mul_div_cancel_left _ (pow_pos hq _)]
  ring

/-- The loop of `basicPohligHellman` when `g^(n / q^E) = 1`: every `beta` is `1`, `bsgs` finds
it, and the loop returns some number. -/
theorem basicLoop_runs (P : Nat) (hP : 2 ≤ P) (g : Int) (hg : Int.gcd g P = 1) (n : Nat)
    (hn : 0 < n) (q : Nat) (hq : q.Prime) (E : Nat) (hqE : q ^ E ∣ n)
    (hB : (g : ZMod P) ^ (n / q ^ E) = 1) (x : Nat) (y : Int)
    (hyx : (y : ZMod P) = (g : ZMod P) ^ x) :
    ∀ fuel J : Nat, J ≤ E → E < fuel + J → ∀ (gamma : Int) (L : Nat) (xacc : Int) (k : Nat),
      (gamma : ZMod P) * (g : ZMod P) ^ (L * q ^ (J - 1)) = (g : ZMod P) ^ k →
      ∃ R : Int,
        basicLoop fuel g y n P q E (some (g ^ (n / q) % (P : Int))) J gamma L xacc = .ok R := by
  have hP0 : (P : Int) ≠ 0 := by omega
  have hq0 : 0 < q := hq.pos
  have hqI : (q : Int) ≠ 0 := by omega
  have hnI : (n : Int) ≠ 0 := by omega
  have hGu : IsUnit ((g : ZMod P)) := isUnit_intCast P g hg
  intro fuel
  induction fuel with
  | zero => intro J h1 h2; omega
  | succ fuel ih =>
    intro J hJE hfuel gamma L xacc k hinv
    unfold basicLoop
    by_cases hlt : (J : Int) < (E : Int)
    · have hJ : J < E := by exact_mod_cast hlt
      rw [if_pos hlt, bigExp_nil_pred]
      simp only [deref, ok_bind]
      have hap : (L : Int) * (q : Int) ^ (J - 1) = ((L * q ^ (J - 1) : Nat) : Int) := by
        push_cast; ring
      rw [hap, bigExp_mod_nat g _ hP0]
      simp only [ok_bind, bigMod_ok _ hP0]
      have hgam : (((gamma * (g ^ (L * q ^ (J - 1)) % (P : Int))) % (P : Int) : Int) : ZMod P)
          = (g : ZMod P) ^ k := by
        rw [ZMod.intCast_mod]
        push_cast
        exact hinv
      generalize hgdef : (gamma * (g ^ (L * q ^ (J - 1)) % (P : Int))) % (P : Int) = gam1 at hgam ⊢
      have hjs : ((J : Int) + 1) = ((J + 1 : Nat) : Int) := by push_cast; ring
      rw [hjs, bigExp_nil_nat]
      simp only [ok_bind, bigDiv_ok _ (pow_ne_zero _ hqI)]
      have hbp : (n : Int) / (q : Int) ^ (J + 1) = ((n / q ^ (J + 1) : Nat) : Int) := by
        push_cast; rfl
      rw [hbp]
      have hgcd : Int.gcd gam1 P = 1 :=
        gcd_eq_one_of_isUnit P gam1 (by rw [hgam]; exact hGu.pow _)
      obtain ⟨v, hv1, hv2, hv3⟩ := bigModInverse_spec gam1 P (by omega) hgcd
      rw [hv1]
      simp only [ok_bind]
      have hV : (g : ZMod P) ^ k * (v : ZMod P) = 1 := by
        rw [← hgam]
        rw [← ZMod.intCast_eq_intCast_iff'] at hv3
        push_cast at hv3
        exact hv3
      rw [bigExp_mod_nat _ _ hP0, Option.getD_some]
      have hbeta : (((((v : Int) * y) ^ (n / q ^ (J + 1)) % (P : Int)) : Int) : ZMod P)
          = ((g ^ (n / q) % (P : Int) : Int) : ZMod P) ^ 0 := by
        rw [intCast_pow_emod, pow_zero]
        push_cast
        rw [hyx, div_pow_succ_eq n q E J hq0 hqE (by omega)]
        exact pow_mul_eq_one_of_inverse _ _ _ k x _ hB hV
      have hga1 : Int.gcd (g ^ (n / q) % (P : Int)) P = 1 := gcd_pow_emod P g hg _
      obtain ⟨r, hr1, _, _, _, _⟩ := bsgs_power P hP (g ^ (n / q) % (P : Int)) hga1 0
        (((v : Int) * y) ^ (n / q ^ (J + 1)) % (P : Int))
        (Int.emod_nonneg _ hP0) (Int.emod_lt_of_pos _ (by omega)) hbeta
      rw [hr1]
      simp only [ok_bind, bigMod_ok _ hqI]
      have hdigit : (r : Int) % (q : Int) = ((r % q : Nat) : Int) := by push_cast; rfl
      rw [hdigit, bigExp_nil_nat]
      simp only [ok_bind]
      apply ih (J + 1) (by omega) (by omega) gam1 (r % q) _ (k + r % q * q ^ J)
      rw [hgam, Nat.add_sub_cancel, ← pow_add]
    · rw [if_neg hlt, bigMod_ok _ hnI]
      exact ⟨_, rfl⟩

theorem basicPohligHellman_runs (P : Nat) (hP : 2 ≤ P) (g : Int) (hg : Int.gcd g P = 1)
    (n : Nat) (hn : 0 < n) (q : Nat) (hq : q.Prime) (E : Nat) (hqE : q ^ E ∣ n)
    (hB : (g : ZMod P) ^ (n / q ^ E) = 1) (x : Nat) (y : Int)
    (hyx : (y : ZMod P) = (g : ZMod P) ^ x) :
    ∃ R : Int, basicPohligHellman g y n P q E = .ok R := by
  have hP0 : (P : Int) ≠ 0 := by omega
  have hqI : (q : Int) ≠ 0 := by have := hq.pos; omega
  unfold basicPohligHellman
  simp only [bigDiv_ok _ hqI, ok_bind]
  have hnq : (n : Int) / (q : Int) = ((n / q : Nat) : Int) := by push_cast; rfl
  rw [hnq, bigExp_mod_nat g _ hP0, Int.toNat_ofNat]
  have h := basicLoop_runs P hP g hg n hn q hq E hqE hB x y hyx (E + 1) 0 (by omega)
    (by omega) 1 0 0 0 (by simp)
  simpa using h

theorem phCollect_runs (P : Nat) (hP : 2 ≤ P) (g : Int) (hg : Int.gcd g P = 1) (n : Nat)
    (hn : 0 < n) (hGn : (g : ZMod P) ^ n = 1) (x : Nat) (y : Int)
    (hyx : (y : ZMod P) = (g : ZMod P) ^ x) :
    ∀ (fs : List factor) (A N : List Int),
      (∀ f ∈ fs, ∃ q e : Nat, f.fact = (q : Int) ∧ f.exp = (e : Int) ∧ q.Prime ∧ 1 ≤ e ∧
        q ^ e ∣ n ∧ f.fact ^ f.exp.toNat = ((q ^ e : Nat) : Int) ∧
        ((g : ZMod P) ^ (n / q) ≠ 1 ∨ (g : ZMod P) ^ (n / q ^ e) = 1)) →
      ∃ A1 : List Int,
        List.Forall₂ (fun f a => (g : ZMod P) ^ (n / f.fact.toNat) ≠ 1 →
          a = (x : Int) % f.fact ^ f.exp.toNat) fs A1 ∧
        phCollect g y n P fs A N = .ok (A ++ A1, N ++ fs.map (fun f => f.fact ^ f.exp.toNat)) := by
  intro fs
  induction fs with
  | nil => intro A N _; exact ⟨[], List.Forall₂.nil, by simp [phCollect, pure_eq_ok]⟩
  | cons f fs ih =>
    intro A N hall
    obtain ⟨q, e, hq, he, hqp, he1, hdvd, hpow, hcase⟩ := hall f (by simp)
    have hstep : ∃ R : Int, basicPohligHellman g y n P q e = .ok R ∧
        ((g : ZMod P) ^ (n / q) ≠ 1 → R = ((x % q ^ e : Nat) : Int)) := by
      by_cases hA1 : (g : ZMod P) ^ (n / q) ≠ 1
      · exact ⟨_, basicPohligHellman_eq P hP g hg n hn hGn q hqp e hdvd hA1 x y hyx,
          fun _ => rfl⟩
      · have hB : (g : ZMod P) ^ (n / q ^ e) = 1 := hcase.resolve_left hA1
        obtain ⟨R, hR⟩ := basicPohligHellman_runs P hP g hg n hn q hqp e hdvd hB x y hyx
        exact ⟨R, hR, fun h => absurd h hA1⟩
    obtain ⟨R, hR, hRx⟩ := hstep
    obtain ⟨A1, hA1, hrest⟩ := ih (A ++ [R]) (N ++ [(q : Int) ^ e])
      (fun f' hf' => hall f' (by simp [hf']))
    refine ⟨R :: A1, List.Forall₂.cons ?_ hA1, ?_⟩
    · intro h
      rw [hq, Int.toNat_ofNat] at h
      rw [hRx h, hq, he]
      push_cast
      rfl
    · unfold phCollect
      simp only [hq, he]
      rw [hR, ok_bind, bigExp_nil_nat]
      simp only [deref, ok_bind]
      rw [hrest]
      simp only [List.map_cons, hq, he, Int.toNat_ofNat, List.append_assoc,
        List.singleton_append]

theorem dvd_of_coprime_or_dvd (z : Int) :
    ∀ (l : List Int), l.Pairwise (fun a b => Int.gcd a b = 1) → ∀ d : Int,
      (∀ m ∈ l, IsCoprime d m ∨ m ∣ z) → d ∣ l.prod → d ∣ z := by
  intro l
  induction l with
  | nil =>
    intro _ d _ hd
    simp only [List.prod_nil] at hd
    exact (isUnit_of_dvd_one hd).dvd
  | cons m l ih =>
    intro hpw d h hd
    rw [List.pairwise_cons] at hpw
    rw [List.prod_cons] at hd
    obtain ⟨d1, d2, h1, h2, rfl⟩ := exists_dvd_and_dvd_of_dvd_mul hd
    have hd1 : d1 ∣ z := by
      rcases h m (by simp) with hc | hmz
      · exact (hc.of_mul_left_left.isUnit_of_dvd h1).dvd
      · exact h1.trans hmz
    have hd2 : d2 ∣ z := by
      apply ih hpw.2 d2 _ h2
      intro m' hm'
      rcases h m' (by simp [hm']) with hc | hmz
      · exact Or.inl hc.of_mul_left_right
      · exact Or.inr hmz
    have hml : IsCoprime m l.prod := by
      rw [Int.isCoprime_iff_gcd_eq_one, gcd_list_prod_eq_one_iff]
      exact hpw.1
    have hcop : IsCoprime d1 d2 :=
      (hml.of_isCoprime_of_dvd_left h1).of_isCoprime_of_dvd_right h2
    exact hcop.mul_dvd hd1 hd2

/-- For a prime `q` with `q^e ∣ n` and an element of order `d ∣ n` with `d` coprime to `n / d`:
either `q ∣ d` and `g^(n/q) ≠ 1`, or `q ∤ d` and `g^(n/q^e) = 1`. -/
theorem pow_div_dichotomy {R : Type} [Monoid R] (G : R) (n q e : Nat) (hn : 0 < n)
    (hdn : orderOf G ∣ n) (hcop : Nat.Coprime (orderOf G) (n / orderOf G)) (hq : q.Prime)
    (he : 1 ≤ e) (hqe : q ^ e ∣ n) :
    (q ∣ orderOf G → G ^ (n / q) ≠ 1) ∧ (¬ q ∣ orderOf G → G ^ (n / q ^ e) = 1) := by
  have hdpos : 0 < orderOf G := Nat.pos_of_dvd_of_pos hdn hn
  have hqn : q ∣ n := (dvd_pow_self q (by omega)).trans hqe
  constructor
  · intro hqd h1
    obtain ⟨c, hc⟩ := orderOf_dvd_of_pow_eq_one h1
    have hnq : n = q * (n / q) := (Nat.mul_div_cancel' hqn).symm
    have hnd : n / orderOf G = q * c := by
      apply Nat.div_eq_of_eq_mul_right hdpos
      rw [hnq, hc]; ring
    have hq1 : q ∣ Nat.gcd (orderOf G) (n / orderOf G) :=
      Nat.dvd_gcd hqd (by rw [hnd]; exact Dvd.intro _ rfl)
    rw [hcop] at hq1
    have := Nat.le_of_dvd (by omega) hq1
    have := hq.two_le
    omega
  · intro hqd
    have hc1 : Nat.Coprime (orderOf G) (q ^ e) :=
      (((Nat.Prime.coprime_iff_not_dvd hq).mpr hqd).symm).pow_right e
    obtain ⟨c, hc⟩ := hqe
    have hdc : orderOf G ∣ c := by
      apply Nat.Coprime.dvd_of_dvd_mul_left hc1
      rw [← hc]; exact hdn
    rw [hc, Nat.mul_div_cancel_left _ (pow_pos hq.pos _)]
    exact orderOf_dvd_iff_pow_eq_one.mp hdc

/-- The function `pohligHellman` on a power of a base whose order `d` is coprime to `φ(P) / d`:
it returns a logarithm of `y` below `φ(P)`. -/
theorem pohligHellman_power (fz : Int → List factor) (P : Nat) (hP : 3 ≤ P) (g : Int)
    (hg : Int.gcd g P = 1)
    (hfz : IsPrimeFactorization (fz (P.totient : Int)) P.totient)
    (hcop : Nat.Coprime (orderOf (g : ZMod P)) (P.totient / orderOf (g : ZMod P)))
    (x : Nat) (y : Int) (hyx : (y : ZMod P) = (g : ZMod P) ^ x) :
    ∃ r : Nat, pohligHellman fz g y P = .ok (some (r : Int)) ∧ r < P.totient ∧
      (g : ZMod P) ^ r = (g : ZMod P) ^ x := by
  have htpos : 0 < P.totient := Nat.totient_pos.mpr (by omega)
  have ht2 : 2 ≤ P.totient := by
    obtain ⟨c, hc⟩ := Nat.totient_even (show 2 < P by omega)
    omega
  obtain ⟨hdpos, hdn⟩ := orderOf_intCast_facts P (by omega) g hg
  have hGn : (g : ZMod P) ^ P.totient = 1 := orderOf_dvd_iff_pow_eq_one.mp hdn
  have hfac := factor_nat (fz (P.totient : Int)) P.totient hfz
  generalize hfs : fz (P.totient : Int) = fs at *
  have hall : ∀ f ∈ fs, ∃ q e : Nat, f.fact = (q : Int) ∧ f.exp = (e : Int) ∧ q.Prime ∧ 1 ≤ e ∧
      q ^ e ∣ P.totient ∧ f.fact ^ f.exp.toNat = ((q ^ e : Nat) : Int) ∧
      ((g : ZMod P) ^ (P.totient / q) ≠ 1 ∨ (g : ZMod P) ^ (P.totient / q ^ e) = 1) := by
    intro f hf
    obtain ⟨q, e, h1, h2, h3, h4, h5, h6⟩ := hfac f hf
    obtain ⟨hA, hB⟩ := pow_div_dichotomy (g : ZMod P) P.totient q e htpos hdn hcop h3 h4 h5
    refine ⟨q, e, h1, h2, h3, h4, h5, h6, ?_⟩
    by_cases hqd : q ∣ orderOf (g : ZMod P)
    · exact Or.inl (hA hqd)
    · exact Or.inr (hB hqd)
  obtain ⟨A1, hF, hcollect⟩ := phCollect_runs P (by omega) g hg P.totient htpos hGn x y hyx
    fs [] [] hall
  -- the call of `crt`
  have hprod : (fs.map (fun f => f.fact ^ f.exp.toNat)).prod = (P.totient : Int) := hfz.2.2
  have hne : fs.map (fun f => f.fact ^ f.exp.toNat) ≠ [] := by
    intro h
    rw [h] at hprod
    simp at hprod
    omega
  have hpos : ∀ m ∈ fs.map (fun f => f.fact ^ f.exp.toNat), 0 < m := by
    intro m hm
    obtain ⟨f, hf, rfl⟩ := List.mem_map.mp hm
    obtain ⟨q, e, _, _, hp, _, _, hpow⟩ := hfac f hf
    rw [hpow]
    exact_mod_cast pow_pos hp.pos e
  have hpw := factor_moduli_pairwise fs P.totient hfz
  have hcopN := getElem_pairwise_of_symm (fun a b : Int => Int.gcd a b = 1)
    (fun a b h => by show Int.gcd b a = 1; rw [Int.gcd_comm]; exact h) _ hpw
  have hlenA : A1.length = fs.length := hF.length_eq.symm
  obtain ⟨x1, hcrt, hx0, hxlt, hmod⟩ := crtWith_solution Int.gcdB
    (fun u v => ⟨Int.gcdA u v, (Int.gcd_eq_gcd_ab u v).symm⟩) A1
    (fs.map (fun f => f.fact ^ f.exp.toNat)) hne (by simp [hlenA]) hpos hcopN
  have hrun : pohligHellman fz g y P = .ok (some x1) := by
    unfold pohligHellman
    rw [phi_eq_totient P (by omega), ok_bind]
    dsimp only
    rw [hfs, hcollect, ok_bind]
    simp only [List.nil_append]
    unfold crt
    rw [hcrt, ok_bind]
    simp only [pure_eq_ok]
  -- the order of `g` divides `x1 - x`
  have hdvd : ((orderOf (g : ZMod P) : Nat) : Int) ∣ x1 - (x : Int) := by
    apply dvd_of_coprime_or_dvd _ _ hpw
    · intro m hm
      obtain ⟨i, hi, rfl⟩ := List.getElem_of_mem hm
      have hi1 : i < fs.length := by simpa using hi
      have hiA : i < A1.length := by omega
      obtain ⟨q, e, h1, h2, h3, h4, h5, h6⟩ := hfac fs[i] (List.getElem_mem hi1)
      obtain ⟨hA, _⟩ := pow_div_dichotomy (g : ZMod P) P.totient q e htpos hdn hcop h3 h4 h5
      simp only [List.getElem_map]
      by_cases hqd : q ∣ orderOf (g : ZMod P)
      · right
        have hget := hF.get hi1 hiA
        simp only [List.get_eq_getElem] at hget
        have hA1i : A1[i] = (x : Int) % fs[i].fact ^ fs[i].exp.toNat := by
          apply hget
          rw [h1, Int.toNat_ofNat]
          exact hA hqd
        have hm1 := (hmod i hi hiA).1
        simp only [List.getElem_map] at hm1
        rw [hA1i, Int.emod_emod_of_dvd _ (dvd_refl _)] at hm1
        exact Int.ModEq.dvd (Eq.symm hm1)
      · left
        rw [h6]
        exact Nat.isCoprime_iff_coprime.mpr
          ((((Nat.Prime.coprime_iff_not_dvd h3).mpr hqd).symm).pow_right e)
    · rw [hprod]
      exact Int.natCast_dvd_natCast.mpr hdn
  rw [hprod] at hxlt
  refine ⟨x1.toNat, ?_, by omega, ?_⟩
  · rw [hrun, Int.toNat_of_nonneg hx0]
  · rw [pow_eq_pow_iff_of_isUnit _ (isUnit_intCast P g hg), Nat.modEq_iff_dvd,
      Int.toNat_of_nonneg hx0]
    exact (dvd_sub_comm).mp hdvd

theorem gcd_eq_one_of_lt_prime (P : Nat) (hp : P.Prime) (g : Int) (hg1 : 1 ≤ g)
    (hgP : g < P) : Int.gcd g P = 1 := by
  have h : Int.gcd g P = Nat.gcd g.natAbs P := by simp [Int.gcd]
  rw [h]
  apply Nat.Coprime.symm
  rw [Nat.Prime.coprime_iff_not_dvd hp]
  intro hd
  have := Nat.le_of_dvd (by omega) hd
  omega

theorem orderOf_two_zmod_seven : orderOf (((2 : Int) : ZMod 7)) = 3 := by
  rw [orderOf_eq_iff (by norm_num)]
  refine ⟨by decide, ?_⟩
  intro m hm hpos
  interval_cases m <;> decide

theorem totient_seven : Nat.totient 7 = 6 := by
  rw [Nat.totient_prime (by norm_num)]

theorem isPrimeFactorization_six : IsPrimeFactorization [⟨2, 1⟩, ⟨3, 1⟩] 6 := by
  refine ⟨?_, by simp, by simp⟩
  intro f hf
  simp only [List.mem_cons, List.mem_singleton, List.not_mem_nil, or_false] at hf
  rcases hf with rfl | rfl
  · exact ⟨by decide, Nat.prime_two, by decide⟩
  · exact ⟨by decide, Nat.prime_three, by decide⟩

/-- C8 (counterexample): `p = 5` is prime, `g = 4` has `1 ≤ g < p` and order `2`, a proper
divisor of `φ(5) = 4`, and `[(2, 2)]` is the complete factorization of `4`; yet
`pohligHellman(4, 4^1 mod 5, 5)` returns no value: at the second digit `a1 = 1` and
`beta = 4`, `bsgs` reports "not found", the error is dropped and `l.Mod(l, pf)` dereferences
the nil result. For the prime `p = 2`, `φ(2) = 1` has the empty factorization and `crt` is
called with empty slices: `n[0]` is out of range. -/
theorem pohligHellman_nongenerator_aborts :
    Nat.Prime 5 ∧ IsPrimeFactorization [⟨2, 2⟩] (Nat.totient 5) ∧
      pohligHellman (fun _ => [⟨2, 2⟩]) 4 ((4 : Int) ^ 1 % 5) 5 = .error Fault.nilDereference ∧
      bsgs 1 4 5 = .ok (none, some GoError.notFoundByBsgs) ∧
      (¬ ∃ r : Int, pohligHellman (fun _ => [⟨2, 2⟩]) 4 ((4 : Int) ^ 1 % 5) 5 = .ok (some r) ∧
        (4 : Int) ^ r.toNat % 5 = (4 : Int) ^ 1 % 5) ∧
      IsPrimeFactorization [] (Nat.totient 2) ∧
      pohligHellman (fun _ => []) 1 ((1 : Int) ^ 0 % 2) 2 = .error Fault.indexOutOfRange := by
  have hrun : pohligHellman (fun _ => [⟨2, 2⟩]) 4 ((4 : Int) ^ 1 % 5) 5
      = .error Fault.nilDereference := by decide
  refine ⟨by norm_num, ?_, hrun, by decide, ?_, ?_, by decide⟩
  · rw [totient_five]; exact isPrimeFactorization_four
  · rintro ⟨r, hr, _⟩
    rw [hrun] at hr
    cases hr
  · rw [Nat.totient_two]
    exact ⟨by simp, List.Pairwise.nil, by simp⟩

/-- C8 (amended): for a prime `p ≥ 3`, a base `g` with `1 ≤ g < p` whose order `d` modulo `p`
is coprime to `φ(p) / d` (every prime dividing `d` divides it as often as it divides the order
`φ(p)` the solver uses; `d` may be a proper divisor of `φ(p)`), a factorization routine that
returns the complete prime factorization of `φ(p)`, and every `x ≥ 0`:
`pohligHellman(g, g^x mod p, p)` returns a value `x' ≥ 0` with `g^x' ≡ g^x (mod p)`. -/
theorem pohligHellman_proper_order (factorize : Int → List factor) (P : Nat) (g : Int)
    (x : Nat) (hp : P.Prime) (hP : 3 ≤ P) (hg1 : 1 ≤ g) (hgP : g < P)
    (hfz : IsPrimeFactorization (factorize (P.totient : Int)) P.totient)
    (hcop : Nat.Coprime (orderOf (g : ZMod P)) (P.totient / orderOf (g : ZMod P))) :
    ∃ r : Nat, pohligHellman factorize g (g ^ x % (P : Int)) P = .ok (some (r : Int)) ∧
      g ^ r % (P : Int) = g ^ x % (P : Int) := by
  have hg : Int.gcd g P = 1 := gcd_eq_one_of_lt_prime P hp g hg1 hgP
  obtain ⟨r, h1, _, h3⟩ := pohligHellman_power factorize P hP g hg hfz hcop x _
    (intCast_pow_emod P g x)
  refine ⟨r, h1, ?_⟩
  rw [← ZMod.intCast_eq_intCast_iff']
  push_cast
  exact h3

theorem pohligHellman_proper_order_witness :
    ∃ r : Nat, pohligHellman (fun _ => [⟨2, 1⟩, ⟨3, 1⟩]) 2 ((2 : Int) ^ 5 % ((7 : Nat) : Int))
        ((7 : Nat) : Int) = .ok (some (r : Int)) ∧
      (2 : Int) ^ r % ((7 : Nat) : Int) = (2 : Int) ^ 5 % ((7 : Nat) : Int) :=
  pohligHellman_proper_order (fun _ => [⟨2, 1⟩, ⟨3, 1⟩]) 7 2 5 (by norm_num) (by norm_num)
    (by norm_num) (by norm_num)
    (by rw [totient_seven]; exact isPrimeFactorization_six)
    (by rw [orderOf_two_zmod_seven, totient_seven]; decide)


/-! ## divides -/

theorem divides_of_ne_zero (x y : Int) (hx : x ≠ 0) :
    divides x y = .ok (decide (y % x = 0)) := by
  unfold divides
  rw [bigMod_ok _ hx, ok_bind, pure_eq_ok]

theorem divides_zero_left (y : Int) : divides 0 y = .error Fault.divisionByZero := by
  simp [divides, bigMod, error_bind]

/-- C11: for every integer `y` and every non-zero integer `x`, `divides(x, y)` returns a
boolean that is true exactly when `y mod x = 0`, that is, exactly when `x` divides `y`; for
`x = 0` the call aborts with the division-by-zero fault of `Mod` and returns nothing. -/
theorem divides_iff_mod_eq_zero (x y : Int) :
    (x ≠ 0 → ∃ b : Bool, divides x y = .ok b ∧ (b = true ↔ y % x = 0) ∧ (b = true ↔ x ∣ y)) ∧
    (x = 0 → divides x y = .error Fault.divisionByZero) := by
  constructor
  · intro hx
    refine ⟨decide (y % x = 0), divides_of_ne_zero x y hx, by simp, ?_⟩
    rw [decide_eq_true_iff]
    exact Int.dvd_iff_emod_eq_zero.symm
  · intro hx
    rw [hx]
    exact divides_zero_left y

theorem divides_iff_mod_eq_zero_witness :
    (∃ b : Bool, divides 234234 328024856392347708811409115924 = .ok b ∧
      (b = true ↔ (328024856392347708811409115924 : Int) % 234234 = 0) ∧
      (b = true ↔ (234234 : Int) ∣ 328024856392347708811409115924)) ∧
    divides 0 6 = .error Fault.divisionByZero :=
  ⟨(divides_iff_mod_eq_zero 234234 328024856392347708811409115924).1 (by decide),
    (divides_iff_mod_eq_zero 0 6).2 rfl⟩

/-! ## bsgs: soundness and completeness -/

/-- A table hit at giant step `i` and baby step `j` exhibits `y` as the power `g^(j + M * i)`. -/
theorem power_of_probe_hit (P : Nat) (hP : 2 ≤ P) (g y : Int) (hy0 : 0 ≤ y) (hyP : y < P)
    (M : Nat) (v : Int) (hv : ((g ^ M % (P : Int)) * v) % (P : Int) = 1 % (P : Int))
    (i j : Nat) (h : bigExp g (j : Int) (some (P : Int)) = some (bsgsProbe y v P i)) :
    (y : ZMod P) = (g : ZMod P) ^ (j + M * i) := by
  obtain ⟨h0, h1⟩ := bsgsProbe_range P (by omega) y v hy0 hyP i
  rw [bigExp_eq_some_iff P (by omega) g _ h0 h1, bsgsProbe_cast] at h
  have hinv := inverse_cast P g M v hv
  have h2 : (g : ZMod P) ^ (M * i) * (v : ZMod P) ^ i = 1 := by
    rw [pow_mul, ← mul_pow, hinv, one_pow]
  rw [pow_add, h, mul_assoc, mul_comm ((v : ZMod P) ^ i), h2, mul_one]

/-- When `y` is no power of `g`, every one of the `M = ⌊√φ(p)⌋ + 1` probes `y * v^i mod p`
(`v` the inverse of `g^M`) misses the table and `bsgs` reports that no solution was found. -/
theorem bsgs_not_found (P : Nat) (hP : 2 ≤ P) (g y : Int) (hg : Int.gcd g P = 1)
    (hy0 : 0 ≤ y) (hyP : y < P) (hno : ∀ k : Nat, (y : ZMod P) ≠ (g : ZMod P) ^ k) :
    bsgs g y P = .ok (none, some GoError.notFoundByBsgs) ∧
    ∃ v : Nat, v < P ∧
      ((g ^ (Nat.sqrt P.totient + 1) % (P : Int)) * (v : Int)) % (P : Int) = 1 % (P : Int) ∧
      ∀ i : Nat, i < Nat.sqrt P.totient + 1 →
        (babyTable g P (Nat.sqrt P.totient + 1)).lookup (some (bsgsProbe y v P i)) = none := by
  have hP0 : (P : Int) ≠ 0 := by omega
  obtain ⟨v, hvP, hv, hb⟩ := bsgs_unfold P hP g y hg
  have hmiss : ∀ i : Nat, i < Nat.sqrt P.totient + 1 →
      (babyTable g P (Nat.sqrt P.totient + 1)).lookup (some (bsgsProbe y v P i)) = none := by
    intro i _
    rcases lookup_babyTable g P (bsgsProbe y v P i) (Nat.sqrt P.totient + 1) with
      ⟨h, _⟩ | ⟨j1, _, _, h3, _⟩
    · exact h
    · exact absurd (power_of_probe_hit P hP g y hy0 hyP _ v hv i j1 h3) (hno _)
  refine ⟨?_, v, hvP, hv, hmiss⟩
  rw [hb]
  have := bsgsGiant_miss P hP0 (Nat.sqrt P.totient + 1) y v _ hmiss
    (Nat.sqrt P.totient + 1 + 1) 0 (Nat.zero_le _) (by omega)
  simpa [bsgsProbe] using this

theorem exists_power_iff (P : Nat) (g y : Int) (hy0 : 0 ≤ y) (hyP : y < P) :
    (∃ k : Nat, g ^ k % (P : Int) = y) ↔ ∃ k : Nat, (y : ZMod P) = (g : ZMod P) ^ k := by
  constructor
  · rintro ⟨k, hk⟩
    exact ⟨k, by rw [← hk, intCast_pow_emod]⟩
  · rintro ⟨k, hk⟩
    refine ⟨k, ?_⟩
    have h1 : ((g ^ k : Int) : ZMod P) = (y : ZMod P) := by push_cast; exact hk.symm
    rw [ZMod.intCast_eq_intCast_iff'] at h1
    rw [h1, Int.emod_eq_of_lt hy0 hyP]

/-- When `y` is a power of `g`, `bsgs` returns a logarithm of `y` below `p`. -/
theorem bsgs_found (P : Nat) (hP : 2 ≤ P) (g y : Int) (hg : Int.gcd g P = 1)
    (hy0 : 0 ≤ y) (hyP : y < P) (x : Nat) (hyx : (y : ZMod P) = (g : ZMod P) ^ x) :
    ∃ r : Nat, bsgs g y P = .ok (some (r : Int), none) ∧ r < P ∧ g ^ r % (P : Int) = y := by
  obtain ⟨r, h1, h2, h3, _, _⟩ := bsgs_power P hP g hg x y hy0 hyP hyx
  refine ⟨r, h1, h2, ?_⟩
  have hpow : (g : ZMod P) ^ r = (g : ZMod P) ^ x :=
    (pow_eq_pow_iff_of_isUnit _ (isUnit_intCast P g hg) r x).mpr h3
  have h4 : ((g ^ r : Int) : ZMod P) = (y : ZMod P) := by push_cast; rw [hpow, hyx]
  rw [ZMod.intCast_eq_intCast_iff'] at h4
  rw [h4, Int.emod_eq_of_lt hy0 hyP]

/-- C17: for a modulus `p ≥ 2`, a base `g` coprime to `p` (in particular every such `g ≥ 1`)
and `0 ≤ y < p`,
`bsgs(g, y, p)` returns a value with a nil error if and only if `y` is congruent to a power
`g^k` (`k ≥ 0`) modulo `p`; the value `r` then satisfies `0 ≤ r < p` and `g^r mod p = y`.
Otherwise every one of the `m = ⌊√φ(p)⌋ + 1` probes `y * v^i mod p`, `i < m`, misses the table
and the call returns a nil value with the error `a solution was not found by bsgs`. -/
theorem bsgs_sound_complete (P : Nat) (g y : Int) (hP : 2 ≤ P)
    (hg : Int.gcd g P = 1) (hy0 : 0 ≤ y) (hyP : y < P) :
    ((∃ r : Int, bsgs g y P = .ok (some r, none)) ↔ ∃ k : Nat, g ^ k % (P : Int) = y) ∧
    ((∃ k : Nat, g ^ k % (P : Int) = y) →
      ∃ r : Nat, bsgs g y P = .ok (some (r : Int), none) ∧ r < P ∧ g ^ r % (P : Int) = y) ∧
    ((¬ ∃ k : Nat, g ^ k % (P : Int) = y) →
      bsgs g y P = .ok (none, some GoError.notFoundByBsgs) ∧
      GoError.notFoundByBsgs.message = "a solution was not found by bsgs" ∧
      ∃ v : Nat, v < P ∧
        ((g ^ (Nat.sqrt P.totient + 1) % (P : Int)) * (v : Int)) % (P : Int) = 1 % (P : Int) ∧
        ∀ i : Nat, i < Nat.sqrt P.totient + 1 →
          (babyTable g P (Nat.sqrt P.totient + 1)).lookup (some (bsgsProbe y v P i)) = none) := by
  have hfound : (∃ k : Nat, g ^ k % (P : Int) = y) →
      ∃ r : Nat, bsgs g y P = .ok (some (r : Int), none) ∧ r < P ∧ g ^ r % (P : Int) = y := by
    intro hk
    obtain ⟨k, hk⟩ := (exists_power_iff P g y hy0 hyP).mp hk
    exact bsgs_found P hP g y hg hy0 hyP k hk
  have hnot := fun hk : ¬ ∃ k : Nat, g ^ k % (P : Int) = y =>
    bsgs_not_found P hP g y hg hy0 hyP
      (fun k h => hk ((exists_power_iff P g y hy0 hyP).mpr ⟨k, h⟩))
  refine ⟨⟨?_, ?_⟩, hfound, fun hk => ⟨(hnot hk).1, rfl, (hnot hk).2⟩⟩
  · rintro ⟨r, hr⟩
    by_contra hk
    rw [(hnot hk).1] at hr
    cases hr
  · intro hk
    obtain ⟨r, hr, _⟩ := hfound hk
    exact ⟨r, hr⟩

theorem bsgs_sound_complete_witness :
    ((∃ r : Int, bsgs 2 3 ((5 : Nat) : Int) = .ok (some r, none)) ↔
      ∃ k : Nat, (2 : Int) ^ k % ((5 : Nat) : Int) = 3) ∧
    ((∃ k : Nat, (2 : Int) ^ k % ((5 : Nat) : Int) = 3) →
      ∃ r : Nat, bsgs 2 3 ((5 : Nat) : Int) = .ok (some (r : Int), none) ∧ r < 5 ∧
        (2 : Int) ^ r % ((5 : Nat) : Int) = 3) ∧
    ((¬ ∃ k : Nat, (2 : Int) ^ k % ((5 : Nat) : Int) = 3) →
      bsgs 2 3 ((5 : Nat) : Int) = .ok (none, some GoError.notFoundByBsgs) ∧
      GoError.notFoundByBsgs.message = "a solution was not found by bsgs" ∧
      ∃ v : Nat, v < 5 ∧
        (((2 : Int) ^ (Nat.sqrt (Nat.totient 5) + 1) % ((5 : Nat) : Int)) * (v : Int))
          % ((5 : Nat) : Int) = 1 % ((5 : Nat) : Int) ∧
        ∀ i : Nat, i < Nat.sqrt (Nat.totient 5) + 1 →
          (babyTable 2 ((5 : Nat) : Int) (Nat.sqrt (Nat.totient 5) + 1)).lookup
            (some (bsgsProbe 3 v ((5 : Nat) : Int) i)) = none) :=
  bsgs_sound_complete 5 2 3 (by norm_num) (by decide) (by norm_num) (by norm_num)

/-- Behaviour of `bsgs` on a base of order below `M = ⌊√φ(p)⌋ + 1`: the result is the largest
index below `M` that is congruent to the exponent modulo the order. -/
theorem bsgs_largest_index (P : Nat) (hP : 2 ≤ P) (g : Int) (hg : Int.gcd g P = 1) (x : Nat)
    (hord : orderOf (g : ZMod P) < Nat.sqrt P.totient + 1) :
    ∃ r : Nat, bsgs g (g ^ x % (P : Int)) P = .ok (some (r : Int), none) ∧
      r < Nat.sqrt P.totient + 1 ∧ r ≡ x [MOD orderOf (g : ZMod P)] ∧
      ∀ j : Nat, j < Nat.sqrt P.totient + 1 → j ≡ x [MOD orderOf (g : ZMod P)] → j ≤ r := by
  obtain ⟨r, h1, _, h3, _, h5⟩ := bsgs_power P hP g hg x (g ^ x % (P : Int))
    (Int.emod_nonneg _ (by omega)) (Int.emod_lt_of_pos _ (by omega)) (intCast_pow_emod P g x)
  obtain ⟨h6, h7⟩ := h5 hord
  refine ⟨r, h1, h6, h3, ?_⟩
  intro j hj hjx
  by_contra hlt
  exact h7 j (by omega) hj hjx

theorem orderOf_one_zmod_seven : orderOf (((1 : Int) : ZMod 7)) = 1 := by
  simp

theorem bsgs_one_one_seven : bsgs 1 1 7 = .ok (some 2, none) := by decide

theorem bsgs_one_one_two : bsgs 1 1 2 = .ok (some 1, none) := by decide

/-- C18: for a modulus `p ≥ 2` and a base `g` coprime to `p` (in particular every such
`g ≥ 1`) whose multiplicative order `d` is smaller than `m = ⌊√φ(p)⌋ + 1`, and every `x ≥ 0`,
`bsgs(g, g^x mod p, p)` returns, without error, the largest `j` in `[0, m)` congruent to `x`
modulo `d`, because a later baby step replaces an earlier one with the same key. For example
`bsgs(1, 1, 7) = 2` and `bsgs(1, 1, 2) = 1`, although `0` is the least solution. -/
theorem bsgs_low_order_last_entry :
    (∀ (P : Nat) (g : Int) (x : Nat), 2 ≤ P → Int.gcd g P = 1 →
      orderOf (g : ZMod P) < Nat.sqrt P.totient + 1 →
      ∃ r : Nat, bsgs g (g ^ x % (P : Int)) P = .ok (some (r : Int), none) ∧
        r < Nat.sqrt P.totient + 1 ∧ r ≡ x [MOD orderOf (g : ZMod P)] ∧
        ∀ j : Nat, j < Nat.sqrt P.totient + 1 → j ≡ x [MOD orderOf (g : ZMod P)] → j ≤ r) ∧
    bsgs 1 1 7 = .ok (some 2, none) ∧ bsgs 1 1 2 = .ok (some 1, none) ∧
    (1 : Int) ^ 0 % 7 = 1 ∧ (1 : Int) ^ 0 % 2 = 1 :=
  ⟨fun P g x hP hg hord => bsgs_largest_index P hP g hg x hord,
    bsgs_one_one_seven, bsgs_one_one_two, by norm_num, by norm_num⟩

theorem bsgs_low_order_last_entry_witness :
    ∃ r : Nat, bsgs 1 ((1 : Int) ^ 0 % ((7 : Nat) : Int)) ((7 : Nat) : Int)
        = .ok (some (r : Int), none) ∧
      r < Nat.sqrt (Nat.totient 7) + 1 ∧ r ≡ 0 [MOD orderOf (((1 : Int) : ZMod 7))] ∧
      ∀ j : Nat, j < Nat.sqrt (Nat.totient 7) + 1 →
        j ≡ 0 [MOD orderOf (((1 : Int) : ZMod 7))] → j ≤ r :=
  bsgs_low_order_last_entry.1 7 1 0 (by norm_num) (by decide)
    (by
      rw [orderOf_one_zmod_seven]
      have : 0 < Nat.sqrt (Nat.totient 7) := Nat.sqrt_pos.mpr (Nat.totient_pos.mpr (by norm_num))
      omega)

/-! ## The group MODP-512-V57 -/

/-- The loop `powModLoop` computes `acc * b ^ e` modulo `p` when the fuel covers the bits of
`e`. -/
theorem powModLoop_spec (p : Nat) :
    ∀ fuel b e acc : Nat, e < 2 ^ fuel →
      powModLoop fuel b e p acc % p = acc * b ^ e % p := by
  intro fuel
  induction fuel with
  | zero =>
    intro b e acc he
    have : e = 0 := by simpa using he
    simp [powModLoop, this]
  | succ fuel ih =>
    intro b e acc he
    unfold powModLoop
    by_cases h0 : e = 0
    · simp [h0]
    · rw [if_neg h0]
      have hlt : e / 2 < 2 ^ fuel := by
        rw [Nat.div_lt_iff_lt_mul (by norm_num)]
        rw [pow_succ] at he
        exact he
      rw [ih _ _ _ hlt]
      have hsq : (b * b % p) ^ (e / 2) ≡ b ^ (2 * (e / 2)) [MOD p] := by
        rw [pow_mul, pow_two]
        exact (Nat.mod_modEq _ _).pow _
      have hsplit : b ^ e = b ^ (e % 2) * b ^ (2 * (e / 2)) := by
        rw [← pow_add, Nat.mod_add_div]
      show _ ≡ _ [MOD p]
      rw [hsplit, ← mul_assoc]
      refine Nat.ModEq.mul ?_ hsq
      rcases Nat.mod_two_eq_zero_or_one e with h | h
      · rw [h]; simp [Nat.ModEq]
      · rw [h]; simp only [if_true, pow_one]
        exact Nat.mod_modEq _ _

set_option maxRecDepth 100000 in
theorem initMODP512V57_fields :
    initMODP512V57.P = some ((7199773997391911030609999317773941274322764333428698921736339643928346453700085358802973900485592910475480089726140708102474957429903531369589969318716771 : Nat) : Int) ∧
    initMODP512V57.G = some ((4565356397095740655436854503483826832136106141639563487732438195343690437606117828318042418238184896212352329118608100083187535033402010599512641674644143 : Nat) : Int) ∧
    initMODP512V57.Q = some ((236234353446506858198510045061214171961 : Nat) : Int) := by
  decide

set_option maxRecDepth 100000 in
theorem modp512v57_powModLoop :
    powModLoop 128
      4565356397095740655436854503483826832136106141639563487732438195343690437606117828318042418238184896212352329118608100083187535033402010599512641674644143
      236234353446506858198510045061214171961
      7199773997391911030609999317773941274322764333428698921736339643928346453700085358802973900485592910475480089726140708102474957429903531369589969318716771
      1 = 1 := by
  decide

/-- A run of `powModLoop` that ends in `1` certifies `Exp(G, Q, P) = 1`, and with it that `Q`
is a multiple of the order of `G` modulo `P`. -/
theorem bigExp_eq_one_of_powModLoop (G Q P fuel : Nat) (hP : 1 < P) (hQ : Q < 2 ^ fuel)
    (h : powModLoop fuel G Q P 1 = 1) :
    bigExp (G : Int) (Q : Int) (some (P : Int)) = some 1 ∧
      (G : Int) ^ Q % (P : Int) = 1 ∧ orderOf (((G : Int)) : ZMod P) ∣ Q := by
  have hpow := powModLoop_spec P fuel G Q 1 hQ
  rw [h, one_mul, Nat.mod_eq_of_lt hP] at hpow
  have hint : (G : Int) ^ Q % (P : Int) = 1 := by
    have := congrArg (fun t : Nat => (t : Int)) hpow
    simp only [Nat.cast_one] at this
    rw [this]
    push_cast
    rfl
  refine ⟨?_, hint, ?_⟩
  · rw [bigExp_mod_nat _ _ (by omega), hint]
  · apply orderOf_dvd_of_pow_eq_one
    rw [← intCast_pow_emod, hint]
    simp

/-- C14: the descriptor stored by `initMODP512V57` holds the three numbers `P`, `G`, `Q` of
`dh.go` (the same decimal strings as in `TestSmallSubgroupAttack`), with `1 < G < P` and
`1 < Q`; `Exp(G, Q, P)`, the value `G^Q mod P`, is `1`, so that the check of the test
succeeds, and `Q` is a multiple of the multiplicative order of `G` modulo `P`. -/
theorem modp512v57_generator_order :
    initMODP512V57.P = some ((7199773997391911030609999317773941274322764333428698921736339643928346453700085358802973900485592910475480089726140708102474957429903531369589969318716771 : Nat) : Int) ∧
    initMODP512V57.G = some ((4565356397095740655436854503483826832136106141639563487732438195343690437606117828318042418238184896212352329118608100083187535033402010599512641674644143 : Nat) : Int) ∧
    initMODP512V57.Q = some ((236234353446506858198510045061214171961 : Nat) : Int) ∧
    bigExp ((4565356397095740655436854503483826832136106141639563487732438195343690437606117828318042418238184896212352329118608100083187535033402010599512641674644143 : Nat) : Int)
      ((236234353446506858198510045061214171961 : Nat) : Int)
      (some ((7199773997391911030609999317773941274322764333428698921736339643928346453700085358802973900485592910475480089726140708102474957429903531369589969318716771 : Nat) : Int)) = some 1 ∧
    ((4565356397095740655436854503483826832136106141639563487732438195343690437606117828318042418238184896212352329118608100083187535033402010599512641674644143 : Nat) : Int) ^ (236234353446506858198510045061214171961 : Nat)
      % ((7199773997391911030609999317773941274322764333428698921736339643928346453700085358802973900485592910475480089726140708102474957429903531369589969318716771 : Nat) : Int) = 1 ∧
    orderOf ((((4565356397095740655436854503483826832136106141639563487732438195343690437606117828318042418238184896212352329118608100083187535033402010599512641674644143 : Nat) : Int)) : ZMod 7199773997391911030609999317773941274322764333428698921736339643928346453700085358802973900485592910475480089726140708102474957429903531369589969318716771)
      ∣ 236234353446506858198510045061214171961 ∧
    (1 : Nat) < 4565356397095740655436854503483826832136106141639563487732438195343690437606117828318042418238184896212352329118608100083187535033402010599512641674644143 ∧
    (4565356397095740655436854503483826832136106141639563487732438195343690437606117828318042418238184896212352329118608100083187535033402010599512641674644143 : Nat) < 7199773997391911030609999317773941274322764333428698921736339643928346453700085358802973900485592910475480089726140708102474957429903531369589969318716771 ∧
    (1 : Nat) < 236234353446506858198510045061214171961 := by
  obtain ⟨hP, hG, hQ⟩ := initMODP512V57_fields
  obtain ⟨h1, h2, h3⟩ := bigExp_eq_one_of_powModLoop
    4565356397095740655436854503483826832136106141639563487732438195343690437606117828318042418238184896212352329118608100083187535033402010599512641674644143
    236234353446506858198510045061214171961
    7199773997391911030609999317773941274322764333428698921736339643928346453700085358802973900485592910475480089726140708102474957429903531369589969318716771
    128 (by norm_num) (by norm_num) modp512v57_powModLoop
  exact ⟨hP, hG, hQ, h1, h2, h3, by norm_num, by norm_num, by norm_num⟩

/-! ## The kangaroo entry point on a curve -/

/-- C13: `catchKangarooOnCurve` aborts on every input with the panic `not implemented`; in
particular it never returns a nil error together with the scalar `k`, which is what
`TestECKangarooAlgorithm` asks of it for `0 ≤ k ≤ b`. -/
theorem catchKangarooOnCurve_aborts {Curve : Type} (curve : Curve)
    (bx by_ x y a b : Option Int) :
    catchKangarooOnCurve curve bx by_ x y a b = .error (Fault.panicText "not implemented") ∧
    ∀ k : Int, catchKangarooOnCurve curve bx by_ x y a b ≠ .ok (some k, none) := by
  refine ⟨rfl, ?_⟩
  intro k h
  cases h

/-! ## The X128 twist oracle -/

/-- Every exit of the loop of `x128.GenerateKey` is an abort or a read error: no key pair is
returned. -/
theorem generateKeyLoop_no_key (rng : Reader) (byteLen : Nat) :
    ∀ (fuel i : Nat) (priv : Bytes),
      (∃ f : Fault, x128.generateKeyLoop fuel rng byteLen i priv = .error f) ∨
      (∃ (p : Bytes) (e : String),
        x128.generateKeyLoop fuel rng byteLen i priv = .ok (p, none, some e)) := by
  intro fuel
  induction fuel with
  | zero => intro i priv; exact Or.inl ⟨_, rfl⟩
  | succ fuel ih =>
    intro i priv
    unfold x128.generateKeyLoop
    cases hr : rng i byteLen with
    | error e => exact Or.inr ⟨priv, e, rfl⟩
    | ok bs =>
      by_cases hq : bigSetBytes bs ≥ x128.Q
      · simp only [hq, if_true]
        exact ih (i + 1) bs
      · simp only [hq, if_false]
        exact Or.inl ⟨_, rfl⟩

/-- The constructor of the oracle aborts for every source of randomness. -/
theorem newX128TwistAttackOracle_error (c : Crypto) (randReader : Reader) (fuel : Nat) :
    ∃ f : Fault, newX128TwistAttackOracle c randReader fuel = .error f := by
  unfold newX128TwistAttackOracle x128.GenerateKey
  rcases generateKeyLoop_no_key (Option.getD none randReader) ((bigBitLen x128.Q + 7) / 8) fuel 0
    (List.replicate ((bigBitLen x128.Q + 7) / 8) 0) with ⟨f, hf⟩ | ⟨p, e, hpe⟩
  · exact ⟨f, by simp only [hf]; rfl⟩
  · exact ⟨_, by simp only [hpe]; rfl⟩

set_option maxRecDepth 100000 in
theorem x128_byteLen : (bigBitLen x128.Q + 7) / 8 = 16 := by decide

set_option maxRecDepth 100000 in
theorem x128_key_of_ones_lt : ¬ bigSetBytes (List.replicate 16 1) ≥ x128.Q := by decide

/-- The constructor on a source of randomness that delivers bytes `0x01`: the first read
gives a private key below `Q` and `ScalarBaseMult` reaches the panic of `ladder`. -/
theorem newX128TwistAttackOracle_ones (c : Crypto) :
    newX128TwistAttackOracle c (fun _ n => .ok (List.replicate n 1)) 1
      = .error (Fault.panicText "not implemented") := by
  unfold newX128TwistAttackOracle x128.GenerateKey
  simp only [x128_byteLen, Option.getD_none, x128.generateKeyLoop, x128_key_of_ones_lt,
    if_false]
  rfl

/-- C15: `newX128TwistAttackOracle()` returns no oracle. For every source of randomness the
call aborts: `x128.GenerateKey` either reports a read error, which the constructor turns into
a panic, or reaches `ScalarBaseMult`, whose `ladder` is `panic("not implemented")`. So there
is no `getPublicKey` whose result could be compared between two victims, although the claim
and `TestTwistAttack` need the oracle; on a source that delivers bytes `0x01` the abort is the
panic `not implemented`. -/
theorem newX128TwistAttackOracle_aborts (c : Crypto) (randReader : Reader) (fuel : Nat) :
    (∃ f : Fault, newX128TwistAttackOracle c randReader fuel = .error f) ∧
    (∀ o : X128TwistAttackOracle, newX128TwistAttackOracle c randReader fuel ≠ .ok o) ∧
    newX128TwistAttackOracle c (fun _ n => .ok (List.replicate n 1)) 1
      = .error (Fault.panicText "not implemented") := by
  obtain ⟨f, hf⟩ := newX128TwistAttackOracle_error c randReader fuel
  refine ⟨⟨f, hf⟩, ?_, newX128TwistAttackOracle_ones c⟩
  intro o h
  rw [hf] at h
  cases h

/-! ## The key encapsulation of kem.go -/

/-- Both parties of a Diffie-Hellman exchange reach the same group element. -/
theorem dh_shared_secret (P g : Int) (a b : Nat) :
    (g ^ b % P) ^ a % P = (g ^ a % P) ^ b % P := by
  have h1 : (g ^ b % P) ^ a ≡ (g ^ b) ^ a [ZMOD P] := (Int.mod_modEq (g ^ b) P).pow a
  have h2 : (g ^ a % P) ^ b ≡ (g ^ a) ^ b [ZMOD P] := (Int.mod_modEq (g ^ a) P).pow b
  have h3 : (g ^ b) ^ a = (g ^ a) ^ b := by rw [← pow_mul, ← pow_mul, mul_comm]
  rw [h3] at h1
  exact h1.trans h2.symm

theorem kemKey_ok (c : Crypto) (s : dhkemScheme) (P : Int) (hs : s.group.P = some P)
    (hP : P ≠ 0) (x pub : Int) (hx : 0 ≤ x) :
    kemKey c s (some x) (some pub) = .ok (c.sha256Sum256 (bigBytes (pub ^ x.toNat % P))) := by
  unfold kemKey
  simp only [deref, ok_bind, hs]
  rw [bigExp_mod pub hP hx]
  rfl

/-- C16: for a group modulus `P ≥ 2`, a base `g`, private exponents `a, b ≥ 0` with the public
values `A = g^a mod P` and `B = g^b mod P`, `Encap(a, B, ·)` and `Decap(b, A, ·)` derive the
same key, the digest of the bytes of `B^a mod P = A^b mod P`; with a digest of 32 bytes, an
AES that accepts 32-byte keys, a GCM constructor that succeeds and an `Open` that undoes
`Seal` under the same key and nonce, `Encap(a, B, payload)` returns a ciphertext and `Decap(b,
A, ·)` returns `payload` on it. -/
theorem kem_round_trip (c : Crypto) (s : dhkemScheme) (P g a b : Int) (payload : Bytes)
    (hs : s.group.P = some P) (hP : 2 ≤ P) (ha : 0 ≤ a) (hb : 0 ≤ b)
    (hsum : ∀ m : Bytes, (c.sha256Sum256 m).length = 32)
    (hcipher : ∀ k : Bytes, k.length = 32 → ∃ blk, c.aesNewCipher k = .ok blk)
    (hgcm : ∀ blk, ∃ ae, c.cipherNewGCM blk = .ok ae)
    (hopen : ∀ ae nonce pt, c.gcmOpen ae nonce (c.gcmSeal ae nonce pt) = .ok pt) :
    (g ^ b.toNat % P) ^ a.toNat % P = (g ^ a.toNat % P) ^ b.toNat % P ∧
    (∃ k : Bytes, kemKey c s (some a) (some (g ^ b.toNat % P)) = .ok k ∧
      kemKey c s (some b) (some (g ^ a.toNat % P)) = .ok k ∧
      k = c.sha256Sum256 (bigBytes ((g ^ b.toNat % P) ^ a.toNat % P))) ∧
    ∃ ct : Bytes,
      s.Encap c (.bigInt (some a)) (.bigInt (some (g ^ b.toNat % P))) payload = .ok ct ∧
      s.Decap c (.bigInt (some b)) (.bigInt (some (g ^ a.toNat % P))) ct = .ok payload := by
  have hP0 : P ≠ 0 := by omega
  have hdh := dh_shared_secret P g a.toNat b.toNat
  have hk1 := kemKey_ok c s P hs hP0 a (g ^ b.toNat % P) ha
  have hk2 := kemKey_ok c s P hs hP0 b (g ^ a.toNat % P) hb
  rw [← hdh] at hk2
  refine ⟨hdh, ⟨_, hk1, hk2, rfl⟩, ?_⟩
  obtain ⟨blk, hblk⟩ := hcipher _ (hsum (bigBytes ((g ^ b.toNat % P) ^ a.toNat % P)))
  obtain ⟨ae, hae⟩ := hgcm blk
  refine ⟨c.gcmSeal ae (repeatNonce 1) payload, ?_, ?_⟩
  · simp only [dhkemScheme.Encap, hk1, ok_bind, hblk, hae, pure_eq_ok]
  · simp only [dhkemScheme.Decap, hk2, ok_bind, hblk, hae, hopen, pure_eq_ok]

theorem kem_round_trip_witness :
    ((3 : Int) ^ (4 : Int).toNat % 7) ^ (2 : Int).toNat % 7
      = ((3 : Int) ^ (2 : Int).toNat % 7) ^ (4 : Int).toNat % 7 ∧
    (∃ k : Bytes,
      kemKey plainCrypto toyScheme (some 2) (some ((3 : Int) ^ (4 : Int).toNat % 7)) = .ok k ∧
      kemKey plainCrypto toyScheme (some 4) (some ((3 : Int) ^ (2 : Int).toNat % 7)) = .ok k ∧
      k = plainCrypto.sha256Sum256
        (bigBytes (((3 : Int) ^ (4 : Int).toNat % 7) ^ (2 : Int).toNat % 7))) ∧
    ∃ ct : Bytes,
      dhkemScheme.Encap plainCrypto toyScheme (.bigInt (some 2))
        (.bigInt (some ((3 : Int) ^ (4 : Int).toNat % 7))) [104, 105] = .ok ct ∧
      dhkemScheme.Decap plainCrypto toyScheme (.bigInt (some 4))
        (.bigInt (some ((3 : Int) ^ (2 : Int).toNat % 7))) ct = .ok [104, 105] :=
  kem_round_trip plainCrypto
    toyScheme
    7 3 2 4 [104, 105] rfl (by norm_num) (by norm_num) (by norm_num)
    (fun _ => by simp [plainCrypto])
    (fun k _ => ⟨k, rfl⟩) (fun blk => ⟨blk, rfl⟩) (fun _ _ _ => rfl)

/-! ## factorize -/

/-- The inner step of trial division removes exactly the power of `d` contained in `r`. -/
theorem stripPower_spec (d : Nat) (hd : 2 ≤ d) :
    ∀ fuel r e : Nat, 1 ≤ r → r ≤ fuel →
      ∃ k : Nat, (stripPower fuel d r e).2 = e + k ∧ r = d ^ k * (stripPower fuel d r e).1 ∧
        ¬ d ∣ (stripPower fuel d r e).1 ∧ 1 ≤ (stripPower fuel d r e).1 := by
  intro fuel
  induction fuel with
  | zero => intro r e h1 h2; omega
  | succ fuel ih =>
    intro r e h1 h2
    unfold stripPower
    by_cases hdiv : r % d = 0
    · rw [if_pos hdiv]
      have hdvd : d ∣ r := Nat.dvd_of_mod_eq_zero hdiv
      have hq1 : 1 ≤ r / d := Nat.div_pos (Nat.le_of_dvd (by omega) hdvd) (by omega)
      have hq2 : r / d < r := Nat.div_lt_self (by omega) (by omega)
      obtain ⟨k, hk1, hk2, hk3, hk4⟩ := ih (r / d) (e + 1) hq1 (by omega)
      refine ⟨k + 1, by rw [hk1]; ring, ?_, hk3, hk4⟩
      have hrd : r = d * (r / d) := (Nat.mul_div_cancel' hdvd).symm
      conv_lhs => rw [hrd, hk2]
      ring
    · rw [if_neg hdiv]
      refine ⟨0, rfl, by simp, ?_, h1⟩
      intro h
      exact hdiv (Nat.mod_eq_zero_of_dvd h)

/-- Trial division from `d` on a cofactor `r` whose primes lie in `[d, limit]` returns the
prime factorization of `r`, in increasing order of the primes. -/
theorem trialDivisionLoop_spec (limit : Nat) :
    ∀ fuel d r : Nat, 2 ≤ d → 1 ≤ r →
      (∀ p : Nat, p.Prime → p ∣ r → d ≤ p ∧ p ≤ limit) → r + 1 - d < fuel →
      ∃ l : List (Nat × Nat), trialDivisionLoop fuel limit d r = .ok l ∧
        (∀ f ∈ l, f.1.Prime ∧ d ≤ f.1 ∧ 1 ≤ f.2) ∧
        l.Pairwise (fun a b => a.1 < b.1) ∧
        (l.map (fun f => f.1 ^ f.2)).prod = r ∧
        ∀ f ∈ l, r.factorization f.1 = f.2 := by
  intro fuel
  induction fuel with
  | zero => intro d r _ _ _ h; omega
  | succ fuel ih =>
    intro d r hd hr hprimes hfuel
    unfold trialDivisionLoop
    by_cases hr1 : r ≤ 1
    · rw [if_pos hr1]
      have : r = 1 := by omega
      exact ⟨[], rfl, by simp, by simp, by simp [this], by simp⟩
    · rw [if_neg hr1]
      have hmf : (Nat.minFac r).Prime := Nat.minFac_prime (by omega)
      obtain ⟨hdm, hml⟩ := hprimes _ hmf (Nat.minFac_dvd r)
      have hdr : d ≤ r := le_trans hdm (Nat.minFac_le (by omega))
      rw [if_neg (by omega)]
      by_cases hdiv : r % d = 0
      · rw [if_pos hdiv]
        have hdvd : d ∣ r := Nat.dvd_of_mod_eq_zero hdiv
        have hdprime : d.Prime := by
          have h1 : (Nat.minFac d).Prime := Nat.minFac_prime (by omega)
          have h2 := (hprimes _ h1 (dvd_trans (Nat.minFac_dvd d) hdvd)).1
          have h3 : Nat.minFac d ≤ d := Nat.minFac_le (by omega)
          have h4 : Nat.minFac d = d := by omega
          rw [← h4]; exact h1
        obtain ⟨k, hk1, hk2, hk3, hk4⟩ := stripPower_spec d hd r r 0 hr (le_refl r)
        have hk0 : k ≠ 0 := by
          rintro rfl
          rw [pow_zero, one_mul] at hk2
          rw [← hk2] at hk3
          exact hk3 hdvd
        have hr1le : (stripPower r d r 0).1 ≤ r := by
          conv_rhs => rw [hk2]
          exact Nat.le_mul_of_pos_left _ (pow_pos (by omega) k)
        have hprimes1 : ∀ p : Nat, p.Prime → p ∣ (stripPower r d r 0).1 →
            d + 1 ≤ p ∧ p ≤ limit := by
          intro p hp hpd
          have hpr : p ∣ r := by rw [hk2]; exact Dvd.dvd.mul_left hpd _
          obtain ⟨h1, h2⟩ := hprimes p hp hpr
          refine ⟨?_, h2⟩
          have : p ≠ d := by rintro rfl; exact hk3 hpd
          omega
        obtain ⟨rest, hrest, hmem, hpw, hprod, hmult⟩ :=
          ih (d + 1) (stripPower r d r 0).1 (by omega) hk4 hprimes1 (by omega)
        have hfact : ∀ q : Nat, r.factorization q
            = (Finsupp.single d k) q + (stripPower r d r 0).1.factorization q := by
          intro q
          conv_lhs => rw [hk2]
          rw [Nat.factorization_mul (pow_pos (by omega) k).ne' (by omega),
            Nat.Prime.factorization_pow hdprime]
          rfl
        refine ⟨(d, (stripPower r d r 0).2) :: rest, ?_, ?_, ?_, ?_, ?_⟩
        · simp only [hrest, ok_bind, pure_eq_ok]
        · intro f hf
          rcases List.mem_cons.mp hf with h | h
          · rw [h]
            exact ⟨hdprime, le_refl d, by simp only [hk1]; omega⟩
          · obtain ⟨h1, h2, h3⟩ := hmem f h
            exact ⟨h1, by omega, h3⟩
        · rw [List.pairwise_cons]
          refine ⟨?_, hpw⟩
          intro f hf
          have := (hmem f hf).2.1
          show d < f.1
          omega
        · rw [List.map_cons, List.prod_cons, hprod, hk1, zero_add]
          exact hk2.symm
        · intro f hf
          rcases List.mem_cons.mp hf with h | h
          · rw [h, hfact, Nat.factorization_eq_zero_of_not_dvd hk3]
            simp [hk1]
          · have hne : d ≠ f.1 := by
              have := (hmem f h).2.1
              omega
            rw [hfact, hmult f h, Finsupp.single_eq_of_ne hne, zero_add]
      · rw [if_neg hdiv]
        have hprimes1 : ∀ p : Nat, p.Prime → p ∣ r → d + 1 ≤ p ∧ p ≤ limit := by
          intro p hp hpr
          obtain ⟨h1, h2⟩ := hprimes p hp hpr
          refine ⟨?_, h2⟩
          have : p ≠ d := by
            rintro rfl
            exact hdiv (Nat.mod_eq_zero_of_dvd hpr)
          omega
        obtain ⟨l, hl, hmem, hpw, hprod, hmult⟩ :=
          ih (d + 1) r (by omega) hr hprimes1 (by omega)
        refine ⟨l, hl, ?_, hpw, hprod, hmult⟩
        intro f hf
        obtain ⟨h1, h2, h3⟩ := hmem f hf
        exact ⟨h1, by omega, h3⟩

/-- Result of `factorize` on a number whose primes do not exceed the limit of the trial
division. -/
theorem factorize_eq (n : Nat) (hn : 2 ≤ n)
    (hsmall : ∀ p : Nat, p.Prime → p ∣ n → p ≤ maxUint32) :
    ∃ fs : List factor, factorize (n : Int) = .ok fs ∧
      (∀ f ∈ fs, 0 ≤ f.fact ∧ f.fact.toNat.Prime ∧ 1 ≤ f.exp) ∧
      fs.Pairwise (fun a b => a.fact < b.fact) ∧
      (fs.map (fun f => f.fact ^ f.exp.toNat)).prod = (n : Int) ∧
      ∀ f ∈ fs, f.exp = (n.factorization f.fact.toNat : Nat) := by
  obtain ⟨l, hl, hmem, hpw, hprod, hmult⟩ := trialDivisionLoop_spec maxUint32 n 2 n (le_refl 2)
    (by omega) (fun p hp hpn => ⟨hp.two_le, hsmall p hp hpn⟩) (by omega)
  refine ⟨l.map (fun p => { fact := (p.1 : Int), exp := (p.2 : Int) }), ?_, ?_, ?_, ?_, ?_⟩
  · unfold factorize intfactTrialDivision
    rw [Int.toNat_natCast, hl]
    rfl
  · intro f hf
    obtain ⟨p, hp, rfl⟩ := List.mem_map.mp hf
    obtain ⟨h1, _, h3⟩ := hmem p hp
    refine ⟨by simp, by simpa using h1, by simpa using h3⟩
  · rw [List.pairwise_map]
    exact hpw.imp (fun h => by simpa using h)
  · rw [← hprod, List.map_map]
    clear hl hmem hpw hprod hmult
    induction l with
    | nil => simp
    | cons p l ih => simp [ih]
  · intro f hf
    obtain ⟨p, hp, rfl⟩ := List.mem_map.mp hf
    simp [hmult p hp]

theorem factorize_twelve :
    factorize 12 = .ok [{ fact := 2, exp := 2 }, { fact := 3, exp := 1 }] := by
  decide

/-- C12: for `n ≥ 2` all of whose prime factors are below `2^32`, `factorize(n)` returns a
list of pairs `(fact, exp)` in which every `fact` is a prime, the primes increase strictly,
every `exp` is at least `1` and is the multiplicity of its prime in `n`, and the product of
the powers `fact^exp` is `n`: the prime factorization of `n`. -/
theorem factorize_prime_factorization (n : Nat) (hn : 2 ≤ n)
    (hsmall : ∀ p : Nat, p.Prime → p ∣ n → p < 2 ^ 32) :
    ∃ fs : List factor, factorize (n : Int) = .ok fs ∧
      (∀ f ∈ fs, 0 ≤ f.fact ∧ f.fact.toNat.Prime ∧ 1 ≤ f.exp) ∧
      fs.Pairwise (fun a b => a.fact < b.fact) ∧
      (fs.map (fun f => f.fact ^ f.exp.toNat)).prod = (n : Int) ∧
      ∀ f ∈ fs, f.exp = (n.factorization f.fact.toNat : Nat) :=
  factorize_eq n hn (fun p hp hpn => by
    have := hsmall p hp hpn
    unfold maxUint32
    omega)

theorem factorize_prime_factorization_witness :
    ∃ fs : List factor, factorize ((12 : Nat) : Int) = .ok fs ∧
      (∀ f ∈ fs, 0 ≤ f.fact ∧ f.fact.toNat.Prime ∧ 1 ≤ f.exp) ∧
      fs.Pairwise (fun a b => a.fact < b.fact) ∧
      (fs.map (fun f => f.fact ^ f.exp.toNat)).prod = ((12 : Nat) : Int) ∧
      ∀ f ∈ fs, f.exp = (Nat.factorization 12 f.fact.toNat : Nat) :=
  factorize_prime_factorization 12 (by norm_num) (fun p _ hpn => by
    have := Nat.le_of_dvd (by norm_num) hpn
    have h2 : (12 : Nat) < 2 ^ 32 := by norm_num
    omega)
end Dhpals
